import Mathlib

/-!
Shallow embedding of the WP-Media-Categorizer repository
(`preprocess_media.py` and `apply_terms_direct.py`).

The Matcher side (`preprocess_media.py`) is modelled by `matchFilename`,
`processMatchesPre` and friends; the Applier side (`apply_terms_direct.py`)
by the `MediaCategorizer` state (`CatState`), the relational store
(`Store`), and the operations `cacheExistingData`, `createTerm`,
`ensureTermHierarchy`, `filterTermsByMode`, `assignTermsToAttachment`,
`processMatchesLive`, `runApply`.

Python strings are modelled as Lean `String`, with the string operations
the source uses (`str.lower`, `str.replace` on one-character needles,
`str.strip`, `str.split`, substring containment, `str.startswith`)
defined over the underlying character list.  `str.lower` is modelled by
`Char.toLower`, which agrees with Python on ASCII (the case the
configuration and filenames of this repository exercise).

Python dictionaries used as caches are modelled as association lists in
which a write prepends a pair and a read (`List.lookup`) returns the most
recent write.  Python sets are modelled as lists queried by membership
(plus explicit first-occurrence deduplication where the source converts a
set to a list; CPython's set iteration order is unspecified, so the model
fixes first-occurrence order — all theorems below are insensitive to that
choice).  The MySQL store is modelled as in-memory lists of rows with
auto-increment counters; the run-level transaction is modelled by
returning the pre-run store when the run aborts before `commit`.

Python's `re` module (an external library from the point of view of this
repository) is modelled for the pattern fragment the configuration
language needs: literal characters, the `.` wildcard and the `^`
position assertion, compiled case-insensitively as the source always
passes `re.IGNORECASE`; any pattern using other metacharacters is outside
the model and `reCompile` rejects it, matching `re.error` on the sample
invalid patterns used below (such as an unterminated `[`).
-/

/-- Python `str.lower` on one character (ASCII, as `Char.toLower`). -/
def lowerChar (c : Char) : Char := Char.toLower c

/-- Python `str.lower`: lowercase every character. -/
def pyLower (s : String) : String := ⟨s.data.map lowerChar⟩

/-- Python `str.replace(old, new)` where `old` is a single character. -/
def replaceChar (old : Char) (new : List Char) (l : List Char) : List Char :=
  l.flatMap fun c => if c = old then new else [c]

/-- The slug computed by `create_term`:
`term_name.lower().replace(' ', '-').replace('&', 'and')`. -/
def pySlug (name : String) : String :=
  ⟨replaceChar '&' ['a', 'n', 'd'] (replaceChar ' ' ['-'] (name.data.map lowerChar))⟩

/-- Python `str.strip()` (default whitespace strip on both ends). -/
def pyStrip (s : String) : String :=
  ⟨((s.data.dropWhile Char.isWhitespace).reverse.dropWhile Char.isWhitespace).reverse⟩

/-- Python `str.split(sep)` for a one-character separator (always returns a
non-empty list; keeps empty fields). -/
def splitChar (sep : Char) : List Char → List (List Char)
  | [] => [[]]
  | c :: cs =>
    if c = sep then [] :: splitChar sep cs
    else
      match splitChar sep cs with
      | [] => [[c]]
      | h :: t => (c :: h) :: t

/-- Does `p` occur at the front of `l`?  (Python `str.startswith`.) -/
def startsWithL : List Char → List Char → Bool
  | [], _ => true
  | _ :: _, [] => false
  | a :: as, b :: bs => a = b && startsWithL as bs

/-- Python `str.startswith(p)` on strings. -/
def pyStartsWith (s p : String) : Bool := startsWithL p.data s.data

/-- Python `needle in hay` substring containment (naive scan). -/
def containsSub (needle : List Char) : List Char → Bool
  | [] => startsWithL needle []
  | c :: cs => startsWithL needle (c :: cs) || containsSub needle cs

/-- Python `str.split(' > ')` as used by `filter_terms_by_mode`
(three-character separator, scanned left to right, non-overlapping). -/
def splitGtSep : List Char → List (List Char)
  | ' ' :: '>' :: ' ' :: rest => [] :: splitGtSep rest
  | c :: rest =>
    match splitGtSep rest with
    | [] => [[c]]
    | h :: t => (c :: h) :: t
  | [] => [[]]

/-- `term_path.split(' > ')[-1]` — the bottom-most displayed segment. -/
def lastGtSegment (path : String) : String :=
  ⟨(splitGtSep path.data).getLastD []⟩

/-- `os.path.basename` for POSIX paths: the part after the last `/`. -/
def pyBasename (s : String) : String :=
  ⟨(splitChar '/' s.data).getLastD []⟩

/-- Lexicographic (code-point) comparison on character lists; this is the
order Python's `sorted` uses on strings. -/
def strLeB : List Char → List Char → Bool
  | [], _ => true
  | _ :: _, [] => false
  | a :: as, b :: bs => if a = b then strLeB as bs else decide (a < b)

/-- Python `s <= t` on strings, as a proposition. -/
def strLe (s t : String) : Prop := strLeB s.data t.data = true

instance : DecidableRel strLe := fun s t => by
  unfold strLe; infer_instance

/-- First-occurrence-order insertion used to model converting a Python
set to a list. -/
def insertNew (l : List String) (x : String) : List String :=
  if x ∈ l then l else l ++ [x]

/-- Accumulate a list of strings into a deduplicated list, keeping
first-occurrence order. -/
def dedupAcc (acc : List String) (xs : List String) : List String :=
  xs.foldl insertNew acc

/-! ## The regex model (Python `re` fragment) -/

/-- One compiled regex item of the modelled fragment. -/
inductive RItem : Type
  | lit (c : Char)
  | dot
  | caret
deriving Repr, DecidableEq

/-- Characters that are `re` metacharacters not supported by the model
(patterns containing them are rejected by `reCompile`). -/
def reMeta : List Char := ['[', ']', '(', ')', '{', '}', '*', '+', '?', '|', '$', '\\']

/-- Model of `re.compile(pattern, re.IGNORECASE)` restricted to the
fragment of literals, `.` and `^`: `none` models `re.error` /
unsupported syntax. -/
def reCompile : List Char → Option (List RItem)
  | [] => some []
  | c :: cs =>
    match reCompile cs with
    | none => none
    | some items =>
      if c = '^' then some (RItem.caret :: items)
      else if c = '.' then some (RItem.dot :: items)
      else if c ∈ reMeta then none
      else some (RItem.lit c :: items)

/-- Does the compiled pattern match starting exactly at position `i` of
`s`?  Literals compare case-insensitively (`re.IGNORECASE`); `.` matches
any character but a newline; `^` asserts position `0`. -/
def matchAt : List RItem → List Char → Nat → Bool
  | [], _, _ => true
  | RItem.caret :: ps, s, i => i = 0 && matchAt ps s i
  | RItem.lit c :: ps, s, i =>
    match s.get? i with
    | none => false
    | some d => lowerChar d = lowerChar c && matchAt ps s (i + 1)
  | RItem.dot :: ps, s, i =>
    match s.get? i with
    | none => false
    | some d => d ≠ '\n' && matchAt ps s (i + 1)

/-- Model of `pattern.search(s) is not None`: try every start position
`0 .. len(s)` (a match may be empty, so the position after the last
character is tried too). -/
def reSearch (p : List RItem) (s : List Char) : Bool :=
  (List.range (s.length + 1)).any (matchAt p s)

/-! ## Matcher (`preprocess_media.py`) -/

/-- One mapping rule from the configuration:
`{ match: string, regex: bool, terms: [category paths] }`. -/
structure Mapping : Type where
  pat : String
  regex : Bool
  terms : List String
deriving Repr, DecidableEq

/-- One WordPress attachment row as returned by
`wp post list --fields=ID,post_title,guid`. -/
structure Attachment : Type where
  ID : Nat
  post_title : String
  guid : String
deriving Repr, DecidableEq

/-- `match_filename(filename, mapping)` together with the warnings it
prints: regex mode compiles and searches (an uncompilable pattern warns
and yields `False`); substring mode tests case-insensitive containment. -/
def matchFilenameW (filename : String) (m : Mapping) : Bool × List String :=
  if m.regex then
    match reCompile m.pat.data with
    | some p => (reSearch p filename.data, [])
    | none => (false, ["Warning: Invalid regex pattern " ++ m.pat])
  else
    (containsSub (pyLower m.pat).data (pyLower filename).data, [])

/-- The boolean result of `match_filename`. -/
def matchFilename (filename : String) (m : Mapping) : Bool :=
  (matchFilenameW filename m).1

/-- One record of the intermediate artifact `tmp/matches.json`. -/
structure MatchData : Type where
  filename : String
  title : String
  terms : List String
deriving Repr, DecidableEq

/-- The per-attachment accumulated term set: union of the `terms` of every
rule whose pattern matches the filename (a Python set, modelled as a
first-occurrence deduplicated list). -/
def accTerms (filename : String) (mappings : List (String × Mapping)) : List String :=
  mappings.foldl
    (fun acc km => if matchFilename filename km.2 then dedupAcc acc km.2.terms else acc) []

/-- The warnings printed while evaluating every rule against one
filename. -/
def ruleWarnings (filename : String) (mappings : List (String × Mapping)) : List String :=
  mappings.foldl (fun ws km => ws ++ (matchFilenameW filename km.2).2) []

/-- `process_matches` of `preprocess_media.py`: for each attachment, take
the basename of its `guid`, accumulate the matched term set, and keep the
attachment only if that set is non-empty; term lists are emitted in
Python's `sorted` order. -/
def processMatchesPre (attachments : List Attachment) (mappings : List (String × Mapping)) :
    List (Nat × MatchData) :=
  attachments.filterMap fun a =>
    let filename := pyBasename a.guid
    let ts := accTerms filename mappings
    if ts.isEmpty then none
    else some (a.ID, ⟨filename, a.post_title, List.insertionSort strLe ts⟩)

/-- All warnings printed by one `process_matches` pass. -/
def processWarnings (attachments : List Attachment) (mappings : List (String × Mapping)) :
    List String :=
  attachments.foldl (fun ws a => ws ++ ruleWarnings (pyBasename a.guid) mappings) []

/-! ## Term Store and Applier (`apply_terms_direct.py`) -/

/-- The fixed taxonomy name `self.taxonomy_name = "media_category"`. -/
def mediaTax : String := "media_category"

/-- One `wp_terms` row. -/
structure Term : Type where
  id : Nat
  name : String
  slug : String
deriving Repr, DecidableEq

/-- One `wp_term_taxonomy` row. -/
structure TTEntry : Type where
  ttId : Nat
  termId : Nat
  taxonomy : String
  parent : Nat
  count : Nat
deriving Repr, DecidableEq

/-- The relational store: `wp_terms`, `wp_term_taxonomy`,
`wp_term_relationships` plus the auto-increment counters that produce
`cursor.lastrowid`. -/
structure Store : Type where
  terms : List Term
  ttax : List TTEntry
  rels : List (Nat × Nat)
  nextTermId : Nat
  nextTtId : Nat
deriving Repr, DecidableEq

/-- The mutable state of a `MediaCategorizer` instance: the three caches
plus the run-report accumulators. -/
structure CatState : Type where
  termCache : List (String × Nat)
  ttCache : List (Nat × Nat)
  existingRels : List (Nat × Nat)
  createdTerms : List (String × Nat)
  assignedRels : List (Nat × List String)
  assignmentErrors : List (Nat × String)
deriving Repr, DecidableEq

/-- The four `term_cache` writes per `wp_terms` row performed by
`cache_existing_data` (write order: name, slug, lowercased name,
lowercased slug; a later write shadows an earlier one, which the
association list realises by prepending). -/
def loadTermCache : List Term → List (String × Nat) → List (String × Nat)
  | [], c => c
  | t :: ts, c =>
    loadTermCache ts
      ((pyLower t.slug, t.id) :: (pyLower t.name, t.id) :: (t.slug, t.id) :: (t.name, t.id) :: c)

/-- `term_taxonomy_cache` built from the `wp_term_taxonomy` rows whose
taxonomy is `media_category`. -/
def loadTtCache : List TTEntry → List (Nat × Nat) → List (Nat × Nat)
  | [], c => c
  | e :: es, c =>
    loadTtCache es (if e.taxonomy = mediaTax then (e.termId, e.ttId) :: c else c)

/-- `cache_existing_data`: load the three caches from the store; the
report accumulators start empty. -/
def cacheExistingData (store : Store) : CatState :=
  { termCache := loadTermCache store.terms []
    ttCache := loadTtCache store.ttax []
    existingRels := store.rels
    createdTerms := []
    assignedRels := []
    assignmentErrors := [] }

/-- `parse_term_hierarchy`: split on `>` and strip each part. -/
def parseTermHierarchy (path : String) : List String :=
  (splitChar '>' path.data).map fun seg => pyStrip ⟨seg⟩

/-- The lookup discipline of `get_term_id` on a term cache: exact key
first, then the lowercased key. -/
def lookupTerm (c : List (String × Nat)) (name : String) : Option Nat :=
  match c.lookup name with
  | some i => some i
  | none => c.lookup (pyLower name)

/-- `get_term_id`: exact cache lookup, then lowercased lookup. -/
def getTermId (st : CatState) (name : String) : Option Nat :=
  lookupTerm st.termCache name

/-- `create_term` in a live run: insert the `wp_terms` and
`wp_term_taxonomy` rows (count 0, parent `parent_id or 0`), update the
caches synchronously (write order: name, slug, lowercased name), record
the creation, and return the new term id. -/
def createTermLive (st : CatState) (store : Store) (name : String) (parentId : Option Nat) :
    Nat × CatState × Store :=
  let slug := pySlug name
  let tid := store.nextTermId
  let ttid := store.nextTtId
  (tid,
    { st with
        termCache := (pyLower name, tid) :: (slug, tid) :: (name, tid) :: st.termCache
        ttCache := (tid, ttid) :: st.ttCache
        createdTerms := st.createdTerms ++ [(name, tid)] },
    { store with
        terms := store.terms ++ [⟨tid, name, slug⟩]
        ttax := store.ttax ++ [⟨ttid, tid, mediaTax, parentId.getD 0, 0⟩]
        nextTermId := tid + 1
        nextTtId := ttid + 1 })

/-- The number of distinct keys of an association-list-modelled Python
dictionary (`len(d)`). -/
def cacheSize (c : List (String × Nat)) : Nat :=
  (c.map Prod.fst).dedup.length

/-- `create_term`: the dry-run branch returns the synthetic id
`len(self.term_cache) + 1000` and performs no write at all (neither to
the store nor to the caches or the created-terms report). -/
def createTerm (st : CatState) (store : Store) (name : String) (parentId : Option Nat)
    (dryRun : Bool) : Nat × CatState × Store :=
  if dryRun then (cacheSize st.termCache + 1000, st, store)
  else createTermLive st store name parentId

/-- The segment loop of `ensure_term_hierarchy`. -/
def ensureSegs (dryRun : Bool) :
    List String → Option Nat → CatState → Store → Option Nat × CatState × Store
  | [], parentId, st, store => (parentId, st, store)
  | n :: ns, parentId, st, store =>
    match getTermId st n with
    | some tid => ensureSegs dryRun ns (some tid) st store
    | none =>
      let r := createTerm st store n parentId dryRun
      ensureSegs dryRun ns (some r.1) r.2.1 r.2.2

/-- `ensure_term_hierarchy`: resolve or create every segment of the path
in order, returning the deepest segment's term id. -/
def ensureTermHierarchy (st : CatState) (store : Store) (path : String) (dryRun : Bool) :
    Option Nat × CatState × Store :=
  ensureSegs dryRun (parseTermHierarchy path) none st store

/-- `filter_terms_by_mode`: `all` expands every path into all of its
segments; `children_only` keeps the bottom displayed segment of a path
some other path strictly extends; `bottom_only` keeps the bottom
displayed segment of a path no other path strictly extends; any other
mode is `sys.exit(1)`, modelled as `Except.error`. -/
def filterTermsByMode (mode : String) (termPaths : List String) : Except Unit (List String) :=
  if mode = "all" then
    .ok (termPaths.foldl (fun acc p => dedupAcc acc (parseTermHierarchy p)) [])
  else if mode = "children_only" then
    .ok (termPaths.foldl
      (fun acc p =>
        if termPaths.any (fun o => o ≠ p && pyStartsWith o (p ++ " > ")) then
          insertNew acc (lastGtSegment p)
        else acc) [])
  else if mode = "bottom_only" then
    .ok (termPaths.foldl
      (fun acc p =>
        if termPaths.any (fun o => o ≠ p && pyStartsWith o (p ++ " > ")) then acc
        else insertNew acc (lastGtSegment p)) [])
  else .error ()

/-- `get_term_taxonomy_id`: term id via `get_term_id`, then the
term-taxonomy cache. -/
def getTermTaxonomyId (st : CatState) (name : String) : Option Nat :=
  match getTermId st name with
  | none => none
  | some tid => st.ttCache.lookup tid

/-- The name loop of `assign_terms_to_attachment`: classify each term
name as not-found (an error), already related (silently skipped), or new
(appended to both `assigned_terms` and `new_relationships`).  The
existing-relationship set is the one from before the batch, exactly as
in the source (it is only updated after a successful insert). -/
def planAssign (st : CatState) (aid : Nat) :
    List String → List String × List (Nat × Nat) × List (Nat × String)
  | [] => ([], [], [])
  | n :: ns =>
    match getTermTaxonomyId st n with
    | none =>
      let r := planAssign st aid ns
      (r.1, r.2.1, (aid, "Term not found: " ++ n) :: r.2.2)
    | some tt =>
      if (aid, tt) ∈ st.existingRels then planAssign st aid ns
      else
        let r := planAssign st aid ns
        (n :: r.1, (aid, tt) :: r.2.1, r.2.2)

/-- The per-relationship `UPDATE wp_term_taxonomy SET count = count + 1`
loop: one increment per inserted row, targeting that row's entry. -/
def bumpCounts (newRels : List (Nat × Nat)) (ttax : List TTEntry) : List TTEntry :=
  newRels.foldl
    (fun tx r => tx.map fun e => if e.ttId = r.2 then { e with count := e.count + 1 } else e)
    ttax

/-- `assign_terms_to_attachment`.  Dry run returns immediately.  Otherwise
the name loop classifies the names; if any new relationships remain they
are batch-inserted and the counts bumped — unless the store raises
(`batchFail`), in which case the `pymysql.Error` is caught, recorded as a
per-object assignment error, and the method returns without touching the
store.  Successful non-empty batches are recorded in
`assigned_relationships`. -/
def assignTermsToAttachment (st : CatState) (store : Store) (aid : Nat) (termNames : List String)
    (dryRun : Bool) (batchFail : Bool) : CatState × Store :=
  if dryRun then (st, store)
  else
    let plan := planAssign st aid termNames
    let assigned := plan.1
    let newRels := plan.2.1
    let st := { st with assignmentErrors := st.assignmentErrors ++ plan.2.2 }
    if newRels.isEmpty then
      if assigned.isEmpty then (st, store)
      else ({ st with assignedRels := st.assignedRels ++ [(aid, assigned)] }, store)
    else if batchFail then
      ({ st with assignmentErrors := st.assignmentErrors ++ [(aid, "Database error assigning terms")] },
        store)
    else
      let store := { store with
        rels := store.rels ++ newRels
        ttax := bumpCounts newRels store.ttax }
      let st := { st with existingRels := st.existingRels ++ newRels }
      if assigned.isEmpty then (st, store)
      else ({ st with assignedRels := st.assignedRels ++ [(aid, assigned)] }, store)

/-- The `all_term_paths` set of `process_matches`: every distinct term
path across all matched attachments (first-occurrence order). -/
def allTermPaths (ms : List (Nat × MatchData)) : List String :=
  ms.foldl (fun acc m => dedupAcc acc m.2.terms) []

/-- The term-creation phase: `ensure_term_hierarchy` over every required
path, discarding the returned deepest ids. -/
def ensureAll (dryRun : Bool) : List String → CatState → Store → CatState × Store
  | [], st, store => (st, store)
  | p :: ps, st, store =>
    let r := ensureTermHierarchy st store p dryRun
    ensureAll dryRun ps r.2.1 r.2.2

/-- The assignment phase of `process_matches`: filter each attachment's
paths by mode (an invalid mode is `sys.exit(1)`) and assign the filtered
names; an empty filtered list is skipped.  `batchFails` says which
objects' batch inserts the store fails. -/
def applyAssignments (mode : String) (dryRun : Bool) (batchFails : Nat → Bool) :
    List (Nat × MatchData) → CatState → Store → Except Unit (CatState × Store)
  | [], st, store => .ok (st, store)
  | (aid, md) :: rest, st, store =>
    match filterTermsByMode mode md.terms with
    | .error e => .error e
    | .ok filtered =>
      if filtered.isEmpty then applyAssignments mode dryRun batchFails rest st store
      else
        let r := assignTermsToAttachment st store aid filtered dryRun (batchFails aid)
        applyAssignments mode dryRun batchFails rest r.1 r.2

/-- `process_matches` of `apply_terms_direct.py` in a live run: no-op on
an empty match set, otherwise the creation phase over `all_term_paths`
followed by the assignment phase. -/
def processMatchesLive (mode : String) (batchFails : Nat → Bool)
    (ms : List (Nat × MatchData)) (st : CatState) (store : Store) :
    Except Unit (CatState × Store) :=
  if ms.isEmpty then .ok (st, store)
  else
    let r := ensureAll false (allTermPaths ms) st store
    applyAssignments mode false batchFails ms r.1 r.2

/-- `process_matches` with `dry_run=True`: the same two phases, but every
`create_term` takes the dry branch and every assignment returns
immediately. -/
def processMatchesDry (mode : String) (ms : List (Nat × MatchData)) (st : CatState)
    (store : Store) : Except Unit (CatState × Store) :=
  if ms.isEmpty then .ok (st, store)
  else
    let r := ensureAll true (allTermPaths ms) st store
    applyAssignments mode true (fun _ => false) ms r.1 r.2

/-- A live `run()` (no `--dry-run`, no `--export`): cache, process, and
commit; `sys.exit(1)` from an invalid mode aborts before the commit, so
the store keeps its pre-run contents and the process exits non-zero.
A caught per-object batch failure does not raise, so the run still
commits and exits `0`.  Result: committed store, final categorizer
state, exit code. -/
def runApply (store : Store) (ms : List (Nat × MatchData)) (mode : String)
    (batchFails : Nat → Bool) : Store × CatState × Nat :=
  let st := cacheExistingData store
  match processMatchesLive mode batchFails ms st store with
  | .error _ => (store, st, 1)
  | .ok r => (r.2, r.1, 0)

/-- The mode filters computed by `display_dry_run_summary`, which is all
of the per-match work a `--dry-run` invocation of `run()` performs (an
invalid mode is still `sys.exit(1)`). -/
def displaySummaryFilters (mode : String) :
    List (Nat × MatchData) → Except Unit (List (List String))
  | [] => .ok []
  | (_, md) :: rest =>
    match filterTermsByMode mode md.terms with
    | .error e => .error e
    | .ok filtered =>
      match displaySummaryFilters mode rest with
      | .error e => .error e
      | .ok fs => .ok (filtered :: fs)

/-- A `--dry-run` invocation of `run()`: cache, display the summary, and
return without ever opening the write path; the store is reported back
untouched together with the exit code. -/
def runDry (store : Store) (ms : List (Nat × MatchData)) (mode : String) : Store × Nat :=
  match displaySummaryFilters mode ms with
  | .error _ => (store, 1)
  | .ok _ => (store, 0)

/-- The denormalized-count invariant of the spec: every
`wp_term_taxonomy` row's `count` equals the number of relationship rows
referencing it. -/
def countOk (store : Store) : Prop :=
  ∀ e ∈ store.ttax, e.count = (store.rels.filter (fun r => r.2 = e.ttId)).length

/-- Store well-formedness guaranteed by MySQL auto-increment: every
existing `term_taxonomy_id`, and every id referenced by a relationship
row, is below the auto-increment counter. -/
def storeWF (store : Store) : Prop :=
  (∀ e ∈ store.ttax, e.ttId < store.nextTtId) ∧ ∀ r ∈ store.rels, r.2 < store.nextTtId

/-- The term-taxonomy cache only holds ids below the auto-increment
counter (an invariant threaded through a run). -/
def ttCacheBound (st : CatState) (store : Store) : Prop :=
  ∀ pr ∈ st.ttCache, pr.2 < store.nextTtId

/-- The three term-cache writes `create_term` performs per created term
(name, slug, lowercased name), folded over a list of created `wp_terms`
rows in creation order. -/
def cWrites : List Term → List (String × Nat) → List (String × Nat)
  | [], c => c
  | t :: ts, c => cWrites ts ((pyLower t.name, t.id) :: (t.slug, t.id) :: (t.name, t.id) :: c)

/-- The term-taxonomy cache write `create_term` performs per created
`wp_term_taxonomy` row, folded in creation order. -/
def ttWrites : List TTEntry → List (Nat × Nat) → List (Nat × Nat)
  | [], c => c
  | e :: es, c => ttWrites es ((e.termId, e.ttId) :: c)

theorem startsWithL_iff (p l : List Char) : startsWithL p l = true ↔ ∃ t, l = p ++ t := by
  induction p generalizing l with
  | nil => simp [startsWithL]
  | cons a as ih =>
    cases l with
    | nil => simp [startsWithL]
    | cons b bs =>
      simp only [startsWithL, Bool.and_eq_true, decide_eq_true_eq, ih]
      constructor
      · rintro ⟨rfl, t, rfl⟩; exact ⟨t, rfl⟩
      · rintro ⟨t, h⟩
        injection h with h1 h2
        exact ⟨h1.symm, t, h2⟩

theorem containsSub_iff (p l : List Char) :
    containsSub p l = true ↔ ∃ u v, l = u ++ p ++ v := by
  induction l with
  | nil =>
    constructor
    · intro h
      rcases (startsWithL_iff p []).mp (by simpa [containsSub] using h) with ⟨t, ht⟩
      rcases List.append_eq_nil.mp ht.symm with ⟨hp, -⟩
      exact ⟨[], [], by simp [hp]⟩
    · rintro ⟨u, v, h⟩
      rcases List.append_eq_nil.mp h.symm with ⟨h1, -⟩
      rcases List.append_eq_nil.mp h1 with ⟨-, hp⟩
      simp [containsSub, startsWithL_iff, hp]
  | cons c cs ih =>
    simp only [containsSub, Bool.or_eq_true, startsWithL_iff, ih]
    constructor
    · rintro (⟨t, ht⟩ | ⟨u, v, h⟩)
      · exact ⟨[], t, by simpa using ht⟩
      · exact ⟨c :: u, v, by simp [h]⟩
    · rintro ⟨u, v, h⟩
      cases u with
      | nil => exact Or.inl ⟨v, by simpa using h⟩
      | cons x xs =>
        injection h with h1 h2
        exact Or.inr ⟨xs, v, h2⟩

theorem reSearch_iff (p : List RItem) (s : List Char) :
    reSearch p s = true ↔ ∃ i, i ≤ s.length ∧ matchAt p s i = true := by
  simp [reSearch, List.any_eq_true, List.mem_range, Nat.lt_succ_iff]

/-- C5: for every filename and non-regex rule, the match predicate holds
iff the lowercased pattern is a substring of the lowercased filename; for
every filename and every regex rule whose pattern compiles, it holds iff
the case-insensitive search finds a match at some start position of the
filename (unanchored search); in particular the anchored pattern `^IMG`
does not match `vacation_IMG_01.jpg` though it does match
`IMG_0042.jpg`. -/
theorem c5_match_filename_semantics (filename : String) (m : Mapping) :
    (m.regex = false →
      (matchFilename filename m = true ↔
        ∃ u v, (pyLower filename).data = u ++ (pyLower m.pat).data ++ v)) ∧
    (∀ p, m.regex = true → reCompile m.pat.data = some p →
      (matchFilename filename m = true ↔
        ∃ i, i ≤ filename.data.length ∧ matchAt p filename.data i = true)) ∧
    matchFilename "vacation_IMG_01.jpg" ⟨"^IMG", true, []⟩ = false ∧
    matchFilename "IMG_0042.jpg" ⟨"^IMG", true, []⟩ = true := by
  refine ⟨?_, ?_, by decide, by decide⟩
  · intro h
    simp [matchFilename, matchFilenameW, h, containsSub_iff]
  · intro p h hc
    simp [matchFilename, matchFilenameW, h, hc, reSearch_iff]

/-- Witness for C5 at concrete inputs: a substring rule and a compiled
regex rule. -/
theorem c5_witness :
    (matchFilename "Photo_WEDDING_01.jpg" ⟨"wedding", false, []⟩ = true ↔
      ∃ u v, (pyLower "Photo_WEDDING_01.jpg").data = u ++ (pyLower "wedding").data ++ v) ∧
    (matchFilename "vacation_IMG_01.jpg" ⟨"^IMG", true, []⟩ = true ↔
      ∃ i, i ≤ "vacation_IMG_01.jpg".data.length ∧
        matchAt [RItem.caret, RItem.lit 'I', RItem.lit 'M', RItem.lit 'G']
          "vacation_IMG_01.jpg".data i = true) :=
  ⟨(c5_match_filename_semantics "Photo_WEDDING_01.jpg" ⟨"wedding", false, []⟩).1 rfl,
   (c5_match_filename_semantics "vacation_IMG_01.jpg" ⟨"^IMG", true, []⟩).2.1 _ rfl (by decide)⟩

/-- C3: the mode filter on the path set `{"Wedding", "Wedding > Portraits"}`
returns `{Wedding, Portraits}` under `all`, `{Portraits}` under
`bottom_only`, `{Wedding}` under `children_only`, and any other mode is a
fatal error (`sys.exit(1)`, modelled as `Except.error`). -/
theorem c3_mode_filter :
    (∃ l, filterTermsByMode "all" ["Wedding", "Wedding > Portraits"] = .ok l ∧
      l.toFinset = {"Wedding", "Portraits"}) ∧
    (∃ l, filterTermsByMode "bottom_only" ["Wedding", "Wedding > Portraits"] = .ok l ∧
      l.toFinset = {"Portraits"}) ∧
    (∃ l, filterTermsByMode "children_only" ["Wedding", "Wedding > Portraits"] = .ok l ∧
      l.toFinset = {"Wedding"}) ∧
    ∀ mode, mode ≠ "all" → mode ≠ "children_only" → mode ≠ "bottom_only" →
      filterTermsByMode mode ["Wedding", "Wedding > Portraits"] = .error () := by
  refine ⟨⟨["Wedding", "Portraits"], rfl, by decide⟩,
    ⟨["Portraits"], rfl, by decide⟩,
    ⟨["Wedding"], rfl, by decide⟩, ?_⟩
  intro mode h1 h2 h3
  simp [filterTermsByMode, h1, h2, h3]

/-- Witness for C3 at the concrete invalid mode `"frobnicate"`. -/
theorem c3_witness :
    filterTermsByMode "frobnicate" ["Wedding", "Wedding > Portraits"] = .error () :=
  c3_mode_filter.2.2.2 "frobnicate" (by decide) (by decide) (by decide)

theorem foldl_appendStr {α : Type} (g : α → List String) (l : List α) :
    ∀ init : List String,
      l.foldl (fun ws x => ws ++ g x) init = init ++ l.foldl (fun ws x => ws ++ g x) [] := by
  induction l with
  | nil => simp
  | cons a l ih =>
    intro init
    simp only [List.foldl_cons, List.nil_append]
    rw [ih (init ++ g a), ih (g a), List.append_assoc]

theorem matchFilenameW_invalid (f : String) (m : Mapping) (hr : m.regex = true)
    (hc : reCompile m.pat.data = none) :
    matchFilenameW f m = (false, ["Warning: Invalid regex pattern " ++ m.pat]) := by
  simp [matchFilenameW, hr, hc]

theorem accTerms_skip (f : String) (pre post : List (String × Mapping)) (k : String)
    (m : Mapping) (h : matchFilename f m = false) :
    accTerms f (pre ++ (k, m) :: post) = accTerms f (pre ++ post) := by
  simp only [accTerms, List.foldl_append, List.foldl_cons, h]
  simp

theorem ruleWarnings_middle (f : String) (pre post : List (String × Mapping)) (k : String)
    (m : Mapping) :
    (ruleWarnings f (pre ++ (k, m) :: post)).length =
      (ruleWarnings f (pre ++ post)).length + (matchFilenameW f m).2.length := by
  simp only [ruleWarnings, List.foldl_append, List.foldl_cons]
  rw [foldl_appendStr (fun x => (matchFilenameW f x.2).2)
        post ((List.foldl _ [] pre) ++ (matchFilenameW f m).2),
      foldl_appendStr (fun x => (matchFilenameW f x.2).2) post (List.foldl _ [] pre)]
  simp only [List.length_append]
  omega

theorem processWarnings_cons (a : Attachment) (atts : List Attachment)
    (M : List (String × Mapping)) :
    processWarnings (a :: atts) M =
      ruleWarnings (pyBasename a.guid) M ++ processWarnings atts M := by
  simp only [processWarnings, List.foldl_cons, List.nil_append]
  rw [foldl_appendStr]

set_option maxHeartbeats 1000000 in
/-- C6 counterexample: with two attachments and a single rule whose regex
pattern `[` fails to compile, the run emits two warnings — one per
evaluation of the rule against a filename — not one per rule. -/
theorem c6_counterexample :
    (processWarnings [⟨1, "t", "http://x/a.jpg"⟩, ⟨2, "t", "http://x/b.jpg"⟩]
        [("bad", ⟨"[", true, ["X"]⟩)]).length = 2 ∧
    (processWarnings [⟨1, "t", "http://x/a.jpg"⟩, ⟨2, "t", "http://x/b.jpg"⟩]
        [("bad", ⟨"[", true, ["X"]⟩)]).length ≠ 1 := by
  decide

/-- C6 (amended): a rule whose regex pattern fails to compile is
non-fatal; it matches no filename, the matcher output is exactly the
output with the rule removed (all other rules and objects unaffected),
and one warning is emitted per evaluation of the rule, i.e. once per
rule per object. -/
theorem c6_invalid_regex_nonfatal (atts : List Attachment) (pre post : List (String × Mapping))
    (k : String) (m : Mapping) (hr : m.regex = true) (hc : reCompile m.pat.data = none) :
    (∀ f, matchFilename f m = false) ∧
    processMatchesPre atts (pre ++ (k, m) :: post) = processMatchesPre atts (pre ++ post) ∧
    (processWarnings atts (pre ++ (k, m) :: post)).length =
      (processWarnings atts (pre ++ post)).length + atts.length := by
  have hfalse : ∀ f, matchFilename f m = false := by
    intro f
    simp [matchFilename, matchFilenameW_invalid f m hr hc]
  refine ⟨hfalse, ?_, ?_⟩
  · simp only [processMatchesPre]
    congr 1
    funext a
    rw [accTerms_skip _ _ _ _ _ (hfalse _)]
  · induction atts with
    | nil => simp [processWarnings]
    | cons a atts ih =>
      rw [processWarnings_cons, processWarnings_cons]
      simp only [List.length_append, ih]
      rw [ruleWarnings_middle _ _ _ _ m, matchFilenameW_invalid _ m hr hc]
      simp
      omega

/-- Witness for C6 (amended) at a concrete invalid rule. -/
theorem c6_witness :
    (∀ f, matchFilename f ⟨"[", true, ["X"]⟩ = false) ∧
    processMatchesPre [⟨1, "t", "http://x/a_wedding.jpg"⟩]
        ([("w", ⟨"wedding", false, ["Wedding"]⟩)] ++ [("bad", ⟨"[", true, ["X"]⟩)] ++ []) =
      processMatchesPre [⟨1, "t", "http://x/a_wedding.jpg"⟩]
        ([("w", ⟨"wedding", false, ["Wedding"]⟩)] ++ []) ∧
    (processWarnings [⟨1, "t", "http://x/a_wedding.jpg"⟩]
        ([("w", ⟨"wedding", false, ["Wedding"]⟩)] ++ [("bad", ⟨"[", true, ["X"]⟩)] ++ [])).length =
      (processWarnings [⟨1, "t", "http://x/a_wedding.jpg"⟩]
        ([("w", ⟨"wedding", false, ["Wedding"]⟩)] ++ [])).length + 1 := by
  have h := c6_invalid_regex_nonfatal [⟨1, "t", "http://x/a_wedding.jpg"⟩]
    [("w", ⟨"wedding", false, ["Wedding"]⟩)] [] "bad" ⟨"[", true, ["X"]⟩ rfl (by decide)
  simpa using h

theorem lookup_cons_ne {β : Type} (a k : String) (b : β) (es : List (String × β)) (h : ¬ a = k) :
    List.lookup a ((k, b) :: es) = List.lookup a es := by
  simp [List.lookup_cons, beq_eq_false_iff_ne.mpr h]

theorem lookupTerm_cons_ne (k : String) (v : Nat) (c : List (String × Nat)) (n : String)
    (h1 : ¬ n = k) (h2 : ¬ pyLower n = k) :
    lookupTerm ((k, v) :: c) n = lookupTerm c n := by
  simp only [lookupTerm, lookup_cons_ne _ _ _ _ h1, lookup_cons_ne _ _ _ _ h2]

theorem lookupTerm_head (n : String) (v : Nat) (c : List (String × Nat)) :
    lookupTerm ((n, v) :: c) n = some v := by
  simp [lookupTerm, List.lookup_cons]

/-- C4: resolving `"Wedding > Portraits > Formal"` against a store in
which none of the three segment names resolves creates exactly three
terms, with `Portraits`' taxonomy parent equal to `Wedding`'s term id and
`Formal`'s taxonomy parent equal to `Portraits`' term id; resolving the
same path again in the same live run creates no further term, changes
nothing, and returns the same deepest id, because `create_term` updates
the lookup cache immediately. -/
theorem c4_hierarchy_resolution (store : Store)
    (hW : getTermId (cacheExistingData store) "Wedding" = none)
    (hP : getTermId (cacheExistingData store) "Portraits" = none)
    (hF : getTermId (cacheExistingData store) "Formal" = none) :
    ∃ st' store',
      ensureTermHierarchy (cacheExistingData store) store "Wedding > Portraits > Formal" false =
        (some (store.nextTermId + 2), st', store') ∧
      st'.createdTerms = [("Wedding", store.nextTermId), ("Portraits", store.nextTermId + 1),
        ("Formal", store.nextTermId + 2)] ∧
      store'.terms = store.terms ++ [⟨store.nextTermId, "Wedding", "wedding"⟩,
        ⟨store.nextTermId + 1, "Portraits", "portraits"⟩,
        ⟨store.nextTermId + 2, "Formal", "formal"⟩] ∧
      store'.ttax = store.ttax ++ [⟨store.nextTtId, store.nextTermId, mediaTax, 0, 0⟩,
        ⟨store.nextTtId + 1, store.nextTermId + 1, mediaTax, store.nextTermId, 0⟩,
        ⟨store.nextTtId + 2, store.nextTermId + 2, mediaTax, store.nextTermId + 1, 0⟩] ∧
      store'.rels = store.rels ∧
      ensureTermHierarchy st' store' "Wedding > Portraits > Formal" false =
        (some (store.nextTermId + 2), st', store') := by
  have hparse : parseTermHierarchy "Wedding > Portraits > Formal" =
      ["Wedding", "Portraits", "Formal"] := by decide
  set n := store.nextTermId with hn
  set t := store.nextTtId with ht
  set C := cacheExistingData store with hC
  simp only [getTermId] at hW hP hF
  have skipP : lookupTerm (("wedding", n) :: ("wedding", n) :: ("Wedding", n) :: C.termCache)
      "Portraits" = none := by
    rw [lookupTerm_cons_ne _ _ _ _ (by decide) (by decide),
      lookupTerm_cons_ne _ _ _ _ (by decide) (by decide),
      lookupTerm_cons_ne _ _ _ _ (by decide) (by decide)]
    exact hP
  have skipF : lookupTerm (("portraits", n + 1) :: ("portraits", n + 1) :: ("Portraits", n + 1) ::
      ("wedding", n) :: ("wedding", n) :: ("Wedding", n) :: C.termCache) "Formal" = none := by
    rw [lookupTerm_cons_ne _ _ _ _ (by decide) (by decide),
      lookupTerm_cons_ne _ _ _ _ (by decide) (by decide),
      lookupTerm_cons_ne _ _ _ _ (by decide) (by decide),
      lookupTerm_cons_ne _ _ _ _ (by decide) (by decide),
      lookupTerm_cons_ne _ _ _ _ (by decide) (by decide),
      lookupTerm_cons_ne _ _ _ _ (by decide) (by decide)]
    exact hF
  have eW : pySlug "Wedding" = "wedding" := by decide
  have eWl : pyLower "Wedding" = "wedding" := by decide
  have eP : pySlug "Portraits" = "portraits" := by decide
  have ePl : pyLower "Portraits" = "portraits" := by decide
  have eF : pySlug "Formal" = "formal" := by decide
  have eFl : pyLower "Formal" = "formal" := by decide
  have lookup_self : ∀ (v : Nat) (c : List (String × Nat)) (nm : String),
      List.lookup nm ((nm, v) :: c) = some v := by
    intro v c nm
    simp [List.lookup_cons]
  have foundW : lookupTerm (("formal", n + 1 + 1) :: ("formal", n + 1 + 1) ::
      ("Formal", n + 1 + 1) :: ("portraits", n + 1) :: ("portraits", n + 1) ::
      ("Portraits", n + 1) :: ("wedding", n) :: ("wedding", n) :: ("Wedding", n) :: C.termCache)
      "Wedding" = some n := by
    simp only [lookupTerm, lookup_cons_ne _ _ _ _ (by decide : ¬ "Wedding" = "formal"),
      lookup_cons_ne _ _ _ _ (by decide : ¬ "Wedding" = "Formal"),
      lookup_cons_ne _ _ _ _ (by decide : ¬ "Wedding" = "portraits"),
      lookup_cons_ne _ _ _ _ (by decide : ¬ "Wedding" = "Portraits"),
      lookup_cons_ne _ _ _ _ (by decide : ¬ "Wedding" = "wedding"), lookup_self]
  have foundP : lookupTerm (("formal", n + 1 + 1) :: ("formal", n + 1 + 1) ::
      ("Formal", n + 1 + 1) :: ("portraits", n + 1) :: ("portraits", n + 1) ::
      ("Portraits", n + 1) :: ("wedding", n) :: ("wedding", n) :: ("Wedding", n) :: C.termCache)
      "Portraits" = some (n + 1) := by
    simp only [lookupTerm, lookup_cons_ne _ _ _ _ (by decide : ¬ "Portraits" = "formal"),
      lookup_cons_ne _ _ _ _ (by decide : ¬ "Portraits" = "Formal"),
      lookup_cons_ne _ _ _ _ (by decide : ¬ "Portraits" = "portraits"), lookup_self]
  have foundF : lookupTerm (("formal", n + 1 + 1) :: ("formal", n + 1 + 1) ::
      ("Formal", n + 1 + 1) :: ("portraits", n + 1) :: ("portraits", n + 1) ::
      ("Portraits", n + 1) :: ("wedding", n) :: ("wedding", n) :: ("Wedding", n) :: C.termCache)
      "Formal" = some (n + 1 + 1) := by
    simp only [lookupTerm, lookup_cons_ne _ _ _ _ (by decide : ¬ "Formal" = "formal"), lookup_self]
  have main : ensureTermHierarchy C store "Wedding > Portraits > Formal" false =
      (some (n + 2),
        ⟨("formal", n + 1 + 1) :: ("formal", n + 1 + 1) :: ("Formal", n + 1 + 1) ::
            ("portraits", n + 1) :: ("portraits", n + 1) :: ("Portraits", n + 1) ::
            ("wedding", n) :: ("wedding", n) :: ("Wedding", n) :: C.termCache,
          (n + 1 + 1, t + 1 + 1) :: (n + 1, t + 1) :: (n, t) :: C.ttCache,
          C.existingRels,
          C.createdTerms ++ [("Wedding", n)] ++ [("Portraits", n + 1)] ++ [("Formal", n + 1 + 1)],
          C.assignedRels, C.assignmentErrors⟩,
        ⟨store.terms ++ [⟨n, "Wedding", "wedding"⟩] ++ [⟨n + 1, "Portraits", "portraits"⟩] ++
            [⟨n + 1 + 1, "Formal", "formal"⟩],
          store.ttax ++ [⟨t, n, mediaTax, 0, 0⟩] ++ [⟨t + 1, n + 1, mediaTax, n, 0⟩] ++
            [⟨t + 1 + 1, n + 1 + 1, mediaTax, n + 1, 0⟩],
          store.rels, n + 1 + 1 + 1, t + 1 + 1 + 1⟩) := by
    rw [ensureTermHierarchy, hparse]
    simp only [ensureSegs, getTermId, createTerm, Bool.false_eq_true, if_false, createTermLive,
      eW, eWl, eP, ePl, eF, eFl, hW, skipP, skipF]
    rfl
  refine ⟨_, _, main, ?_, ?_, ?_, ?_, ?_⟩
  · simp [hC, cacheExistingData]
  · simp
  · simp
  · rfl
  · rw [ensureTermHierarchy, hparse]
    simp only [ensureSegs, getTermId, foundW, foundP, foundF]

/-- Witness for C4 at the empty store. -/
theorem c4_witness :
    ∃ st' store',
      ensureTermHierarchy (cacheExistingData ⟨[], [], [], 1, 1⟩) ⟨[], [], [], 1, 1⟩
          "Wedding > Portraits > Formal" false = (some 3, st', store') ∧
      st'.createdTerms = [("Wedding", 1), ("Portraits", 2), ("Formal", 3)] ∧
      store'.terms = [⟨1, "Wedding", "wedding"⟩, ⟨2, "Portraits", "portraits"⟩,
        ⟨3, "Formal", "formal"⟩] ∧
      store'.ttax = [⟨1, 1, mediaTax, 0, 0⟩, ⟨2, 2, mediaTax, 1, 0⟩, ⟨3, 3, mediaTax, 2, 0⟩] ∧
      store'.rels = [] ∧
      ensureTermHierarchy st' store' "Wedding > Portraits > Formal" false =
        (some 3, st', store') := by
  have h := c4_hierarchy_resolution ⟨[], [], [], 1, 1⟩ (by decide) (by decide) (by decide)
  simpa using h

theorem ensureSegs_dry (segs : List String) (p : Option Nat) (st : CatState) (store : Store) :
    ∃ x, ensureSegs true segs p st store = (x, st, store) := by
  induction segs generalizing p with
  | nil => exact ⟨p, rfl⟩
  | cons n ns ih =>
    simp only [ensureSegs]
    cases h : getTermId st n with
    | some tid => exact ih (some tid)
    | none => exact ih (some (cacheSize st.termCache + 1000))

theorem ensureAll_dry (ps : List String) (st : CatState) (store : Store) :
    ensureAll true ps st store = (st, store) := by
  induction ps with
  | nil => rfl
  | cons p ps ih =>
    simp only [ensureAll, ensureTermHierarchy]
    rcases ensureSegs_dry (parseTermHierarchy p) none st store with ⟨x, hx⟩
    rw [hx]
    exact ih

theorem applyAssignments_dry (mode : String) (bf : Nat → Bool) (ms : List (Nat × MatchData))
    (st : CatState) (store : Store) (r : CatState × Store)
    (h : applyAssignments mode true bf ms st store = .ok r) : r = (st, store) := by
  induction ms with
  | nil => simpa [applyAssignments] using h.symm
  | cons m rest ih =>
    obtain ⟨aid, md⟩ := m
    rw [applyAssignments] at h
    cases hf : filterTermsByMode mode md.terms with
    | error e => simp [hf] at h
    | ok filtered =>
      simp only [hf] at h
      by_cases he : filtered.isEmpty
      · rw [if_pos he] at h; exact ih h
      · rw [if_neg he] at h
        exact ih h

/-- C9 counterexample: in a store whose single real term has id `1002`,
the dry-run synthetic id for the next would-be-created term is
`len(term_cache) + 1000 = 1002` as well — the synthetic ids are not drawn
from a range distinguishable from real store-assigned ids. -/
theorem c9_counterexample :
    (createTerm (cacheExistingData ⟨[⟨1002, "Wedding", "wedding"⟩],
        [⟨1, 1002, "media_category", 0, 0⟩], [], 1003, 2⟩)
      ⟨[⟨1002, "Wedding", "wedding"⟩], [⟨1, 1002, "media_category", 0, 0⟩], [], 1003, 2⟩
      "Portraits" none true).1 = 1002 ∧
    ∃ tm ∈ (⟨[⟨1002, "Wedding", "wedding"⟩], [⟨1, 1002, "media_category", 0, 0⟩], [], 1003,
      2⟩ : Store).terms, tm.id = 1002 := by
  decide

/-- C9 (amended): in dry-run mode the store is left exactly as it was —
`run()` only computes the summary, and even the full dry `process_matches`
path performs no term, taxonomy-entry or relationship write; the synthetic
ids returned by the dry `create_term` are `len(term_cache) + 1000`, a
value that is not in general distinguishable from real store-assigned
ids. -/
theorem c9_dry_run_purity (store : Store) (ms : List (Nat × MatchData)) (mode : String)
    (st : CatState) (name : String) (parentId : Option Nat) :
    (runDry store ms mode).1 = store ∧
    (∀ r, processMatchesDry mode ms (cacheExistingData store) store = .ok r →
      r = (cacheExistingData store, store)) ∧
    createTerm st store name parentId true = (cacheSize st.termCache + 1000, st, store) := by
  refine ⟨?_, ?_, rfl⟩
  · rw [runDry]
    cases displaySummaryFilters mode ms <;> rfl
  · intro r h
    rw [processMatchesDry] at h
    by_cases he : ms.isEmpty
    · rw [if_pos he] at h
      simpa using h.symm
    · rw [if_neg he, ensureAll_dry] at h
      exact applyAssignments_dry _ _ _ _ _ _ h

/-- Witness for C9 (amended) at a concrete dry run (the dry
`process_matches` hypothesis is discharged by computation). -/
theorem c9_witness :
    (runDry ⟨[], [], [], 1, 1⟩ [(5, ⟨"a.jpg", "t", ["Wedding"]⟩)] "all").1 = ⟨[], [], [], 1, 1⟩ ∧
    ((cacheExistingData ⟨[], [], [], 1, 1⟩, (⟨[], [], [], 1, 1⟩ : Store)) : CatState × Store) =
      (cacheExistingData ⟨[], [], [], 1, 1⟩, ⟨[], [], [], 1, 1⟩) := by
  have h := c9_dry_run_purity ⟨[], [], [], 1, 1⟩ [(5, ⟨"a.jpg", "t", ["Wedding"]⟩)] "all"
    (cacheExistingData ⟨[], [], [], 1, 1⟩) "X" none
  exact ⟨h.1, h.2.1 (cacheExistingData ⟨[], [], [], 1, 1⟩, ⟨[], [], [], 1, 1⟩) rfl⟩

theorem filter_valid_ok (mode : String) (paths : List String)
    (h : mode = "all" ∨ mode = "children_only" ∨ mode = "bottom_only") :
    ∃ l, filterTermsByMode mode paths = .ok l := by
  rcases h with rfl | rfl | rfl
  · exact ⟨_, rfl⟩
  · exact ⟨_, rfl⟩
  · exact ⟨_, rfl⟩

theorem ensureSegs_rels (segs : List String) (p : Option Nat) (st : CatState) (store : Store) :
    (ensureSegs false segs p st store).2.2.rels = store.rels := by
  induction segs generalizing p st store with
  | nil => rfl
  | cons n ns ih =>
    simp only [ensureSegs]
    cases h : getTermId st n with
    | some tid => exact ih _ _ _
    | none =>
      simp only [createTerm, Bool.false_eq_true, if_false]
      rw [ih]
      rfl

theorem ensureAll_rels (ps : List String) (st : CatState) (store : Store) :
    (ensureAll false ps st store).2.rels = store.rels := by
  induction ps generalizing st store with
  | nil => rfl
  | cons p ps ih =>
    simp only [ensureAll, ensureTermHierarchy]
    rw [ih, ensureSegs_rels]

theorem planAssign_fst (st : CatState) (aid : Nat) (names : List String) :
    ∀ x ∈ (planAssign st aid names).2.1, x.1 = aid := by
  induction names with
  | nil => intro x hx; simp [planAssign] at hx
  | cons n ns ih =>
    intro x hx
    simp only [planAssign] at hx
    cases h : getTermTaxonomyId st n with
    | none =>
      simp only [h] at hx
      exact ih x hx
    | some tt =>
      simp only [h] at hx
      by_cases hm : (aid, tt) ∈ st.existingRels
      · simp only [if_pos hm] at hx
        exact ih x hx
      · simp only [if_neg hm] at hx
        rcases List.mem_cons.mp hx with rfl | hx'
        · rfl
        · exact ih x hx'

theorem assign_rels_filter (st : CatState) (store : Store) (aid : Nat) (names : List String)
    (fail : Bool) (a : Nat) (h : a ≠ aid ∨ fail = true) :
    ((assignTermsToAttachment st store aid names false fail).2.rels.filter
        (fun r => r.1 = a)) =
      store.rels.filter (fun r => r.1 = a) := by
  simp only [assignTermsToAttachment, Bool.false_eq_true, if_false]
  by_cases he : (planAssign st aid names).2.1.isEmpty
  · rw [if_pos he]
    by_cases ha : (planAssign st aid names).1.isEmpty
    · rw [if_pos ha]
    · rw [if_neg ha]
  · rw [if_neg he]
    rcases h with ha | hfail
    · by_cases hb : fail
      · rw [if_pos hb]
      · rw [if_neg hb]
        have hnil : (planAssign st aid names).2.1.filter (fun r => r.1 = a) = [] := by
          rw [List.filter_eq_nil_iff]
          intro x hx
          have := planAssign_fst st aid names x hx
          simp [this, ha.symm]
        by_cases hc : (planAssign st aid names).1.isEmpty
        · rw [if_pos hc]
          simp only [List.filter_append, hnil, List.append_nil]
        · rw [if_neg hc]
          simp only [List.filter_append, hnil, List.append_nil]
    · rw [if_pos hfail]

theorem applyAssignments_ok (mode : String) (dr : Bool) (bf : Nat → Bool)
    (ms : List (Nat × MatchData)) (st : CatState) (store : Store)
    (hmode : mode = "all" ∨ mode = "children_only" ∨ mode = "bottom_only") :
    ∃ r, applyAssignments mode dr bf ms st store = .ok r := by
  induction ms generalizing st store with
  | nil => exact ⟨(st, store), rfl⟩
  | cons m rest ih =>
    obtain ⟨aid, md⟩ := m
    rcases filter_valid_ok mode md.terms hmode with ⟨l, hl⟩
    rw [applyAssignments]
    simp only [hl]
    by_cases he : l.isEmpty
    · rw [if_pos he]; exact ih _ _
    · rw [if_neg he]; exact ih _ _

theorem applyAssignments_rels_filter (mode : String) (bf : Nat → Bool) (a : Nat)
    (hbf : bf a = true) (ms : List (Nat × MatchData)) (st : CatState) (store : Store)
    (r : CatState × Store) (h : applyAssignments mode false bf ms st store = .ok r) :
    r.2.rels.filter (fun x => x.1 = a) = store.rels.filter (fun x => x.1 = a) := by
  induction ms generalizing st store with
  | nil =>
    rw [applyAssignments] at h
    cases h
    rfl
  | cons m rest ih =>
    obtain ⟨aid, md⟩ := m
    rw [applyAssignments] at h
    cases hf : filterTermsByMode mode md.terms with
    | error e => simp [hf] at h
    | ok filtered =>
      simp only [hf] at h
      by_cases he : filtered.isEmpty
      · rw [if_pos he] at h
        exact ih _ _ h
      · rw [if_neg he] at h
        rw [ih _ _ h]
        apply assign_rels_filter
        rcases eq_or_ne a aid with rfl | hne
        · exact Or.inr hbf
        · exact Or.inl hne

set_option maxHeartbeats 1000000 in
/-- C1 counterexample: a live run over two matched objects in which the
store raises on object 5's relationship batch insert.  The
`pymysql.Error` is caught inside `assign_terms_to_attachment` and only
recorded; the run then commits and exits `0`, and both object 6's
relationship row and the term created during the run persist — the
transaction is not rolled back and the exit code is not non-zero. -/
theorem c1_counterexample :
    (runApply ⟨[], [], [], 1, 1⟩ [(5, ⟨"a.jpg", "t", ["Wedding"]⟩), (6, ⟨"b.jpg", "t", ["Wedding"]⟩)]
        "all" (fun a => a = 5)).2.2 = 0 ∧
    (runApply ⟨[], [], [], 1, 1⟩ [(5, ⟨"a.jpg", "t", ["Wedding"]⟩), (6, ⟨"b.jpg", "t", ["Wedding"]⟩)]
        "all" (fun a => a = 5)).1.rels = [(6, 1)] ∧
    (runApply ⟨[], [], [], 1, 1⟩ [(5, ⟨"a.jpg", "t", ["Wedding"]⟩), (6, ⟨"b.jpg", "t", ["Wedding"]⟩)]
        "all" (fun a => a = 5)).1.terms = [⟨1, "Wedding", "wedding"⟩] ∧
    (runApply ⟨[], [], [], 1, 1⟩ [(5, ⟨"a.jpg", "t", ["Wedding"]⟩), (6, ⟨"b.jpg", "t", ["Wedding"]⟩)]
        "all" (fun a => a = 5)).2.1.assignmentErrors = [(5, "Database error assigning terms")] := by
  decide

/-- C1 (amended): a store-level error raised during the relationship
batch insert for one object of a live run is caught inside
`assign_terms_to_attachment` and recorded as a per-object assignment
error; the run continues, commits, and exits `0` (for any valid mode),
and only the failing objects' relationship rows are withheld: the
committed store holds exactly the pre-run relationship rows for every
object whose batch insert failed. -/
theorem c1_batch_error_caught (store : Store) (ms : List (Nat × MatchData)) (mode : String)
    (bf : Nat → Bool)
    (hmode : mode = "all" ∨ mode = "children_only" ∨ mode = "bottom_only") :
    (runApply store ms mode bf).2.2 = 0 ∧
    ∀ a, bf a = true →
      (runApply store ms mode bf).1.rels.filter (fun x => x.1 = a) =
        store.rels.filter (fun x => x.1 = a) := by
  rw [runApply, processMatchesLive]
  by_cases he : ms.isEmpty
  · rw [if_pos he]
    exact ⟨rfl, fun a ha => rfl⟩
  · rw [if_neg he]
    rcases applyAssignments_ok mode false bf ms
      (ensureAll false (allTermPaths ms) (cacheExistingData store) store).1
      (ensureAll false (allTermPaths ms) (cacheExistingData store) store).2 hmode with ⟨r, hr⟩
    simp only [hr]
    refine ⟨trivial, fun a ha => ?_⟩
    rw [applyAssignments_rels_filter mode bf a ha ms _ _ r hr, ensureAll_rels]

/-- Witness for C1 (amended) at the counterexample input. -/
theorem c1_witness :
    (runApply ⟨[], [], [], 1, 1⟩ [(5, ⟨"a.jpg", "t", ["Wedding"]⟩), (6, ⟨"b.jpg", "t", ["Wedding"]⟩)]
        "all" (fun a => a = 5)).2.2 = 0 ∧
    (runApply ⟨[], [], [], 1, 1⟩ [(5, ⟨"a.jpg", "t", ["Wedding"]⟩), (6, ⟨"b.jpg", "t", ["Wedding"]⟩)]
        "all" (fun a => a = 5)).1.rels.filter (fun x => x.1 = 5) =
      ([] : List (Nat × Nat)).filter (fun x => x.1 = 5) := by
  have h := c1_batch_error_caught ⟨[], [], [], 1, 1⟩
    [(5, ⟨"a.jpg", "t", ["Wedding"]⟩), (6, ⟨"b.jpg", "t", ["Wedding"]⟩)] "all"
    (fun a => a = 5) (Or.inl rfl)
  exact ⟨h.1, h.2 5 (by decide)⟩

theorem strLeB_total (a : List Char) : ∀ b, strLeB a b = true ∨ strLeB b a = true := by
  induction a with
  | nil => intro b; exact Or.inl rfl
  | cons x xs ih =>
    intro b
    cases b with
    | nil => exact Or.inr rfl
    | cons y ys =>
      by_cases h : x = y
      · subst h
        simp only [strLeB, if_pos rfl]
        exact ih ys
      · rcases lt_trichotomy x y with hlt | heq | hgt
        · left; simp [strLeB, h, hlt]
        · exact absurd heq h
        · right; simp [strLeB, Ne.symm h, hgt]

theorem strLeB_trans (a : List Char) : ∀ b c, strLeB a b = true → strLeB b c = true →
    strLeB a c = true := by
  induction a with
  | nil => intro b c _ _; rfl
  | cons x xs ih =>
    intro b c hab hbc
    cases b with
    | nil => simp [strLeB] at hab
    | cons y ys =>
      cases c with
      | nil => simp [strLeB] at hbc
      | cons z zs =>
        by_cases hxy : x = y
        · subst hxy
          simp only [strLeB, if_pos rfl] at hab
          by_cases hyz : x = z
          · subst hyz
            simp only [strLeB, if_pos rfl] at hbc ⊢
            exact ih ys zs hab hbc
          · simp only [strLeB, if_neg hyz] at hbc ⊢
            exact hbc
        · simp only [strLeB, if_neg hxy, decide_eq_true_eq] at hab
          by_cases hyz : y = z
          · subst hyz
            simp [strLeB, hxy, hab]
          · simp only [strLeB, if_neg hyz, decide_eq_true_eq] at hbc
            have hxz : x < z := lt_trans hab hbc
            simp [strLeB, ne_of_lt hxz, hxz]

theorem strLeB_antisymm (a : List Char) : ∀ b, strLeB a b = true → strLeB b a = true →
    a = b := by
  induction a with
  | nil =>
    intro b _ hba
    cases b with
    | nil => rfl
    | cons y ys => simp [strLeB] at hba
  | cons x xs ih =>
    intro b hab hba
    cases b with
    | nil => simp [strLeB] at hab
    | cons y ys =>
      by_cases hxy : x = y
      · subst hxy
        simp only [strLeB, if_pos rfl] at hab hba
        rw [ih ys hab hba]
      · simp only [strLeB, if_neg hxy, decide_eq_true_eq] at hab
        simp only [strLeB, if_neg (Ne.symm hxy), decide_eq_true_eq] at hba
        exact absurd (lt_trans hab hba) (lt_irrefl x)

instance : IsTotal String strLe :=
  ⟨fun a b => strLeB_total a.data b.data⟩

instance : IsTrans String strLe :=
  ⟨fun a b c => strLeB_trans a.data b.data c.data⟩

instance : IsAntisymm String strLe :=
  ⟨fun a b h1 h2 => String.ext (strLeB_antisymm a.data b.data h1 h2)⟩

theorem mem_insertNew (l : List String) (y x : String) :
    x ∈ insertNew l y ↔ x ∈ l ∨ x = y := by
  by_cases h : y ∈ l
  · simp only [insertNew, if_pos h]
    constructor
    · exact Or.inl
    · rintro (hx | rfl)
      · exact hx
      · exact h
  · simp [insertNew, if_neg h]

theorem nodup_insertNew (l : List String) (y : String) (h : l.Nodup) :
    (insertNew l y).Nodup := by
  by_cases hy : y ∈ l
  · simpa [insertNew, if_pos hy] using h
  · simp [insertNew, if_neg hy, List.nodup_append, h, hy]

theorem mem_dedupAcc (xs : List String) : ∀ (acc : List String) (x : String),
    x ∈ dedupAcc acc xs ↔ x ∈ acc ∨ x ∈ xs := by
  induction xs with
  | nil => intro acc x; simp [dedupAcc]
  | cons y ys ih =>
    intro acc x
    simp only [dedupAcc, List.foldl_cons]
    rw [show List.foldl insertNew (insertNew acc y) ys = dedupAcc (insertNew acc y) ys from rfl,
      ih, mem_insertNew]
    simp only [List.mem_cons]
    tauto

theorem nodup_dedupAcc (xs : List String) : ∀ acc : List String, acc.Nodup →
    (dedupAcc acc xs).Nodup := by
  induction xs with
  | nil => intro acc h; exact h
  | cons y ys ih =>
    intro acc h
    exact ih _ (nodup_insertNew acc y h)

theorem mem_accTerms_aux (f : String) (M : List (String × Mapping)) :
    ∀ (acc : List String) (x : String),
      x ∈ M.foldl (fun acc km =>
          if matchFilename f km.2 then dedupAcc acc km.2.terms else acc) acc ↔
        x ∈ acc ∨ ∃ km ∈ M, matchFilename f km.2 = true ∧ x ∈ km.2.terms := by
  induction M with
  | nil => intro acc x; simp
  | cons km M ih =>
    intro acc x
    simp only [List.foldl_cons]
    by_cases h : matchFilename f km.2
    · rw [if_pos h, ih, mem_dedupAcc]
      simp only [List.mem_cons]
      constructor
      · rintro ((ha | ht) | ⟨km', hkm', hm, hx⟩)
        · exact Or.inl ha
        · exact Or.inr ⟨km, Or.inl rfl, h, ht⟩
        · exact Or.inr ⟨km', Or.inr hkm', hm, hx⟩
      · rintro (ha | ⟨km', (rfl | hkm'), hm, hx⟩)
        · exact Or.inl (Or.inl ha)
        · exact Or.inl (Or.inr hx)
        · exact Or.inr ⟨km', hkm', hm, hx⟩
    · rw [if_neg h, ih]
      simp only [List.mem_cons]
      constructor
      · rintro (ha | ⟨km', hkm', hm, hx⟩)
        · exact Or.inl ha
        · exact Or.inr ⟨km', Or.inr hkm', hm, hx⟩
      · rintro (ha | ⟨km', (rfl | hkm'), hm, hx⟩)
        · exact Or.inl ha
        · exact absurd hm (by simpa using h)
        · exact Or.inr ⟨km', hkm', hm, hx⟩

theorem mem_accTerms (f : String) (M : List (String × Mapping)) (x : String) :
    x ∈ accTerms f M ↔ ∃ km ∈ M, matchFilename f km.2 = true ∧ x ∈ km.2.terms := by
  rw [accTerms, mem_accTerms_aux]
  simp

theorem nodup_accTerms (f : String) (M : List (String × Mapping)) : (accTerms f M).Nodup := by
  rw [accTerms]
  generalize hacc : ([] : List String) = acc
  have hn : acc.Nodup := hacc ▸ List.nodup_nil
  clear hacc
  induction M generalizing acc with
  | nil => exact hn
  | cons km M ih =>
    simp only [List.foldl_cons]
    by_cases h : matchFilename f km.2
    · rw [if_pos h]
      exact ih _ (nodup_dedupAcc _ _ hn)
    · rw [if_neg h]
      exact ih _ hn

theorem accTerms_perm (f : String) (M₁ M₂ : List (String × Mapping)) (hp : M₁.Perm M₂) :
    (accTerms f M₁).Perm (accTerms f M₂) := by
  apply List.perm_of_nodup_nodup_toFinset_eq (nodup_accTerms f M₁) (nodup_accTerms f M₂)
  ext x
  simp only [List.mem_toFinset, mem_accTerms]
  constructor
  · rintro ⟨km, hkm, hm, hx⟩; exact ⟨km, hp.mem_iff.mp hkm, hm, hx⟩
  · rintro ⟨km, hkm, hm, hx⟩; exact ⟨km, hp.mem_iff.mpr hkm, hm, hx⟩

theorem insertionSort_eq_of_perm (l₁ l₂ : List String) (h : l₁.Perm l₂) :
    List.insertionSort strLe l₁ = List.insertionSort strLe l₂ :=
  List.eq_of_perm_of_sorted
    ((List.perm_insertionSort strLe l₁).trans (h.trans (List.perm_insertionSort strLe l₂).symm))
    (List.sorted_insertionSort strLe l₁) (List.sorted_insertionSort strLe l₂)

/-- C7: the Matcher's output is invariant under permutation of the rules:
permuting the mapping list leaves `process_matches` unchanged; every
emitted record's term list is the non-empty, duplicate-free,
lexicographically sorted union of the `terms` of all rules matching its
filename; and every attachment whose accumulated set is non-empty
contributes its record (one with an empty set contributes nothing and is
omitted). -/
theorem c7_matcher_rule_order_invariance (atts : List Attachment)
    (M₁ M₂ : List (String × Mapping)) (hp : M₁.Perm M₂) :
    processMatchesPre atts M₁ = processMatchesPre atts M₂ ∧
    (∀ aid md, (aid, md) ∈ processMatchesPre atts M₁ →
      md.terms ≠ [] ∧ List.Sorted strLe md.terms ∧ md.terms.Nodup ∧
      ∀ x, x ∈ md.terms ↔
        ∃ km ∈ M₁, matchFilename md.filename km.2 = true ∧ x ∈ km.2.terms) ∧
    ∀ a ∈ atts, accTerms (pyBasename a.guid) M₁ ≠ [] →
      (a.ID, ⟨pyBasename a.guid, a.post_title,
        List.insertionSort strLe (accTerms (pyBasename a.guid) M₁)⟩) ∈
          processMatchesPre atts M₁ := by
  refine ⟨?_, ?_, ?_⟩
  · simp only [processMatchesPre]
    induction atts with
    | nil => rfl
    | cons a atts ih =>
      simp only [List.filterMap_cons]
      have hperm := accTerms_perm (pyBasename a.guid) M₁ M₂ hp
      have hemp : (accTerms (pyBasename a.guid) M₁).isEmpty =
          (accTerms (pyBasename a.guid) M₂).isEmpty := by
        rcases h : accTerms (pyBasename a.guid) M₁ with - | ⟨y, ys⟩
        · rw [h] at hperm
          rw [← hperm.nil_eq]
        · rw [h] at hperm
          have h2 : accTerms (pyBasename a.guid) M₂ ≠ [] := by
            intro hc
            rw [hc] at hperm
            simpa using hperm.length_eq
          simp [List.isEmpty_iff, h2]
      rw [hemp, insertionSort_eq_of_perm _ _ hperm, ih]
  · intro aid md hmem
    simp only [processMatchesPre, List.mem_filterMap] at hmem
    rcases hmem with ⟨a, ha, hsome⟩
    by_cases hemp : (accTerms (pyBasename a.guid) M₁).isEmpty
    · rw [if_pos hemp] at hsome
      exact absurd hsome (by simp)
    · rw [if_neg hemp] at hsome
      injection hsome with h1
      injection h1 with h2 h3
      subst h2
      have hmd : md = ⟨pyBasename a.guid, a.post_title,
          List.insertionSort strLe (accTerms (pyBasename a.guid) M₁)⟩ := h3.symm
      subst hmd
      have hp1 := List.perm_insertionSort strLe (accTerms (pyBasename a.guid) M₁)
      refine ⟨?_, List.sorted_insertionSort strLe _, hp1.nodup_iff.mpr (nodup_accTerms _ _), ?_⟩
      · intro hc
        rw [List.isEmpty_iff] at hemp
        exact hemp (List.Perm.nil_eq (hc ▸ hp1)).symm
      · intro x
        rw [hp1.mem_iff, mem_accTerms]
  · intro a ha hne
    simp only [processMatchesPre, List.mem_filterMap]
    refine ⟨a, ha, ?_⟩
    rw [if_neg (by simpa [List.isEmpty_iff] using hne)]

/-- Witness for C7 at a concrete two-rule permutation. -/
theorem c7_witness :
    processMatchesPre [⟨7, "t", "http://x/a_wedding_beach.jpg"⟩]
        [("w", ⟨"wedding", false, ["Wedding"]⟩), ("b", ⟨"beach", false, ["Travel > Beach"]⟩)] =
      processMatchesPre [⟨7, "t", "http://x/a_wedding_beach.jpg"⟩]
        [("b", ⟨"beach", false, ["Travel > Beach"]⟩), ("w", ⟨"wedding", false, ["Wedding"]⟩)] :=
  (c7_matcher_rule_order_invariance [⟨7, "t", "http://x/a_wedding_beach.jpg"⟩]
    [("w", ⟨"wedding", false, ["Wedding"]⟩), ("b", ⟨"beach", false, ["Travel > Beach"]⟩)]
    [("b", ⟨"beach", false, ["Travel > Beach"]⟩), ("w", ⟨"wedding", false, ["Wedding"]⟩)]
    (List.Perm.swap _ _ _)).1

theorem lookup_cons_mono {β : Type} (c : List (String × β)) (k n : String) (v : β)
    (h : (List.lookup n c).isSome) : (List.lookup n ((k, v) :: c)).isSome := by
  rw [List.lookup_cons]
  cases hk : n == k
  · simpa using h
  · simp

theorem lookupTerm_cons_mono (c : List (String × Nat)) (k n : String) (v : Nat)
    (h : (lookupTerm c n).isSome) : (lookupTerm ((k, v) :: c) n).isSome := by
  rw [lookupTerm] at h ⊢
  cases he : List.lookup n ((k, v) :: c) with
  | some i => simp
  | none =>
    rw [List.lookup_cons] at he
    cases hk : n == k
    · rw [hk] at he
      simp only [he]
      cases hex : List.lookup n c with
      | some i => rw [hex] at he; exact absurd he (by simp)
      | none =>
        rw [hex] at h
        simp only at h
        exact lookup_cons_mono c k (pyLower n) v h
    · rw [hk] at he
      exact absurd he (by simp)

theorem getTermId_createTermLive_mono (st : CatState) (store : Store) (nm : String)
    (p : Option Nat) (n : String) (h : (getTermId st n).isSome) :
    (getTermId (createTermLive st store nm p).2.1 n).isSome := by
  simp only [getTermId, createTermLive] at h ⊢
  exact lookupTerm_cons_mono _ _ _ _ (lookupTerm_cons_mono _ _ _ _
    (lookupTerm_cons_mono _ _ _ _ h))

theorem lookup_writes_self (k1 k2 : String) (t : Nat) (c : List (String × Nat)) (nm : String) :
    List.lookup nm ((k1, t) :: (k2, t) :: (nm, t) :: c) = some t := by
  rw [List.lookup_cons]
  cases h1 : nm == k1
  · rw [List.lookup_cons]
    cases h2 : nm == k2
    · rw [List.lookup_cons]
      simp
    · simp
  · simp

theorem getTermId_createTermLive_self (st : CatState) (store : Store) (nm : String)
    (p : Option Nat) : getTermId (createTermLive st store nm p).2.1 nm = some store.nextTermId := by
  simp only [getTermId, createTermLive, lookupTerm, lookup_writes_self]

theorem ensureSegs_cache_mono (segs : List String) (p : Option Nat) (st : CatState)
    (store : Store) (n : String) (h : (getTermId st n).isSome) :
    (getTermId (ensureSegs false segs p st store).2.1 n).isSome := by
  induction segs generalizing p st store with
  | nil => exact h
  | cons s ss ih =>
    simp only [ensureSegs]
    cases hs : getTermId st s with
    | some tid => exact ih _ _ _ h
    | none =>
      simp only [createTerm, Bool.false_eq_true, if_false]
      exact ih _ _ _ (getTermId_createTermLive_mono st store s p n h)

theorem ensureSegs_resolves (segs : List String) (p : Option Nat) (st : CatState)
    (store : Store) : ∀ s ∈ segs, (getTermId (ensureSegs false segs p st store).2.1 s).isSome := by
  induction segs generalizing p st store with
  | nil => intro s hs; simp at hs
  | cons x xs ih =>
    intro s hs
    rcases List.mem_cons.mp hs with rfl | hs'
    · simp only [ensureSegs]
      cases hx : getTermId st s with
      | some tid => exact ensureSegs_cache_mono xs _ st store s (by simp [hx])
      | none =>
        simp only [createTerm, Bool.false_eq_true, if_false]
        exact ensureSegs_cache_mono xs _ _ _ s
          (by simp [getTermId_createTermLive_self st store s p])
    · simp only [ensureSegs]
      cases hx : getTermId st x with
      | some tid => exact ih _ _ _ s hs'
      | none =>
        simp only [createTerm, Bool.false_eq_true, if_false]
        exact ih _ _ _ s hs'

theorem ensureAll_cache_mono (ps : List String) (st : CatState) (store : Store) (n : String)
    (h : (getTermId st n).isSome) :
    (getTermId (ensureAll false ps st store).1 n).isSome := by
  induction ps generalizing st store with
  | nil => exact h
  | cons p ps ih =>
    simp only [ensureAll, ensureTermHierarchy]
    exact ih _ _ (ensureSegs_cache_mono _ _ _ _ _ h)

theorem ensureAll_resolves (ps : List String) (st : CatState) (store : Store) :
    ∀ p ∈ ps, ∀ s ∈ parseTermHierarchy p,
      (getTermId (ensureAll false ps st store).1 s).isSome := by
  induction ps generalizing st store with
  | nil => intro p hp; simp at hp
  | cons q qs ih =>
    intro p hp s hs
    rcases List.mem_cons.mp hp with rfl | hp'
    · simp only [ensureAll, ensureTermHierarchy]
      exact ensureAll_cache_mono qs _ _ s
        (ensureSegs_resolves (parseTermHierarchy p) none st store s hs)
    · simp only [ensureAll]
      exact ih _ _ p hp' s hs

theorem mem_allTermPaths_aux (ms : List (Nat × MatchData)) :
    ∀ (acc : List String) (x : String),
      x ∈ ms.foldl (fun acc m => dedupAcc acc m.2.terms) acc ↔
        x ∈ acc ∨ ∃ m ∈ ms, x ∈ m.2.terms := by
  induction ms with
  | nil => intro acc x; simp
  | cons m ms ih =>
    intro acc x
    simp only [List.foldl_cons, ih, mem_dedupAcc, List.mem_cons]
    constructor
    · rintro ((ha | ht) | ⟨m', hm', hx⟩)
      · exact Or.inl ha
      · exact Or.inr ⟨m, Or.inl rfl, ht⟩
      · exact Or.inr ⟨m', Or.inr hm', hx⟩
    · rintro (ha | ⟨m', (rfl | hm'), hx⟩)
      · exact Or.inl (Or.inl ha)
      · exact Or.inl (Or.inr hx)
      · exact Or.inr ⟨m', hm', hx⟩

theorem mem_allTermPaths (ms : List (Nat × MatchData)) (x : String) :
    x ∈ allTermPaths ms ↔ ∃ m ∈ ms, x ∈ m.2.terms := by
  rw [allTermPaths, mem_allTermPaths_aux]
  simp

theorem bumpCounts_shape (rels : List (Nat × Nat)) (tx : List TTEntry) :
    (bumpCounts rels tx).map (fun e => (e.ttId, e.termId, e.taxonomy, e.parent)) =
      tx.map (fun e => (e.ttId, e.termId, e.taxonomy, e.parent)) := by
  induction rels generalizing tx with
  | nil => rfl
  | cons r rs ih =>
    rw [bumpCounts, List.foldl_cons,
      show List.foldl _ _ rs = bumpCounts rs (tx.map fun e =>
        if e.ttId = r.2 then { e with count := e.count + 1 } else e) from rfl, ih, List.map_map]
    apply List.map_congr_left
    intro e _
    by_cases h : e.ttId = r.2
    · simp [h]
    · simp [h]

theorem assign_frame (st : CatState) (store : Store) (aid : Nat) (names : List String)
    (dr : Bool) (fail : Bool) :
    (assignTermsToAttachment st store aid names dr fail).1.termCache = st.termCache ∧
    (assignTermsToAttachment st store aid names dr fail).1.ttCache = st.ttCache ∧
    (assignTermsToAttachment st store aid names dr fail).1.createdTerms = st.createdTerms ∧
    (assignTermsToAttachment st store aid names dr fail).2.terms = store.terms ∧
    (assignTermsToAttachment st store aid names dr fail).2.ttax.map
        (fun e => (e.ttId, e.termId, e.taxonomy, e.parent)) =
      store.ttax.map (fun e => (e.ttId, e.termId, e.taxonomy, e.parent)) ∧
    (assignTermsToAttachment st store aid names dr fail).2.nextTermId = store.nextTermId ∧
    (assignTermsToAttachment st store aid names dr fail).2.nextTtId = store.nextTtId := by
  rw [assignTermsToAttachment]
  cases dr with
  | true => simp
  | false =>
    simp only [Bool.false_eq_true, if_false]
    by_cases he : (planAssign st aid names).2.1.isEmpty
    · rw [if_pos he]
      by_cases ha : (planAssign st aid names).1.isEmpty
      · rw [if_pos ha]; simp
      · rw [if_neg ha]; simp
    · rw [if_neg he]
      cases fail with
      | true => simp
      | false =>
        simp only [Bool.false_eq_true, if_false]
        by_cases ha : (planAssign st aid names).1.isEmpty
        · rw [if_pos ha]
          simp [bumpCounts_shape]
        · rw [if_neg ha]
          simp [bumpCounts_shape]

theorem applyAssignments_frame (mode : String) (dr : Bool) (bf : Nat → Bool)
    (ms : List (Nat × MatchData)) (st : CatState) (store : Store) (r : CatState × Store)
    (h : applyAssignments mode dr bf ms st store = .ok r) :
    r.1.termCache = st.termCache ∧ r.1.ttCache = st.ttCache ∧
    r.1.createdTerms = st.createdTerms ∧ r.2.terms = store.terms ∧
    r.2.ttax.map (fun e => (e.ttId, e.termId, e.taxonomy, e.parent)) =
      store.ttax.map (fun e => (e.ttId, e.termId, e.taxonomy, e.parent)) ∧
    r.2.nextTermId = store.nextTermId ∧ r.2.nextTtId = store.nextTtId := by
  induction ms generalizing st store with
  | nil =>
    rw [applyAssignments] at h
    cases h
    exact ⟨rfl, rfl, rfl, rfl, rfl, rfl, rfl⟩
  | cons m rest ih =>
    obtain ⟨aid, md⟩ := m
    rw [applyAssignments] at h
    cases hf : filterTermsByMode mode md.terms with
    | error e => simp [hf] at h
    | ok filtered =>
      simp only [hf] at h
      by_cases he : filtered.isEmpty
      · rw [if_pos he] at h
        exact ih _ _ h
      · rw [if_neg he] at h
        have h1 := ih _ _ h
        have h2 := assign_frame st store aid filtered dr (bf aid)
        refine ⟨h1.1.trans h2.1, h1.2.1.trans h2.2.1, h1.2.2.1.trans h2.2.2.1,
          h1.2.2.2.1.trans h2.2.2.2.1, h1.2.2.2.2.1.trans h2.2.2.2.2.1,
          h1.2.2.2.2.2.1.trans h2.2.2.2.2.2.1, h1.2.2.2.2.2.2.trans h2.2.2.2.2.2.2⟩

/-- C10: in a live apply run, hierarchy resolution runs over every
distinct full category path of the matches artifact before any mode
filtering: after the creation phase every segment of every matched path
resolves in the term cache, whatever the configured mode; and the mode
setting changes neither the `wp_terms` table, the created-terms report,
nor any `wp_term_taxonomy` row apart from its denormalized count — it
only restricts which term names are attached as relationships. -/
theorem c10_terms_created_regardless_of_mode (store : Store) (ms : List (Nat × MatchData))
    (m₁ m₂ : String) (bf : Nat → Bool)
    (h₁ : m₁ = "all" ∨ m₁ = "children_only" ∨ m₁ = "bottom_only")
    (h₂ : m₂ = "all" ∨ m₂ = "children_only" ∨ m₂ = "bottom_only") :
    (∀ r, processMatchesLive m₁ bf ms (cacheExistingData store) store = .ok r →
      ∀ x ∈ ms, ∀ p ∈ x.2.terms, ∀ s ∈ parseTermHierarchy p, (getTermId r.1 s).isSome) ∧
    (runApply store ms m₁ bf).1.terms = (runApply store ms m₂ bf).1.terms ∧
    (runApply store ms m₁ bf).2.1.createdTerms = (runApply store ms m₂ bf).2.1.createdTerms ∧
    (runApply store ms m₁ bf).1.ttax.map (fun e => (e.ttId, e.termId, e.taxonomy, e.parent)) =
      (runApply store ms m₂ bf).1.ttax.map (fun e => (e.ttId, e.termId, e.taxonomy, e.parent)) := by
  constructor
  · intro r hr x hx p hp s hs
    rw [processMatchesLive] at hr
    by_cases he : ms.isEmpty
    · rw [List.isEmpty_iff] at he
      subst he
      simp at hx
    · rw [if_neg he] at hr
      have hframe := applyAssignments_frame m₁ false bf ms _ _ r hr
      have : getTermId r.1 s =
          getTermId (ensureAll false (allTermPaths ms) (cacheExistingData store) store).1 s := by
        rw [getTermId, getTermId, hframe.1]
      rw [this]
      exact ensureAll_resolves _ _ _ p (by rw [mem_allTermPaths]; exact ⟨x, hx, hp⟩) s hs
  · rw [runApply, runApply, processMatchesLive, processMatchesLive]
    by_cases he : ms.isEmpty
    · rw [if_pos he, if_pos he]
      exact ⟨rfl, rfl, rfl⟩
    · rw [if_neg he, if_neg he]
      rcases applyAssignments_ok m₁ false bf ms
        (ensureAll false (allTermPaths ms) (cacheExistingData store) store).1
        (ensureAll false (allTermPaths ms) (cacheExistingData store) store).2 h₁ with ⟨r₁, hr₁⟩
      rcases applyAssignments_ok m₂ false bf ms
        (ensureAll false (allTermPaths ms) (cacheExistingData store) store).1
        (ensureAll false (allTermPaths ms) (cacheExistingData store) store).2 h₂ with ⟨r₂, hr₂⟩
      have hf₁ := applyAssignments_frame m₁ false bf ms _ _ r₁ hr₁
      have hf₂ := applyAssignments_frame m₂ false bf ms _ _ r₂ hr₂
      simp only [hr₁, hr₂]
      exact ⟨hf₁.2.2.2.1.trans hf₂.2.2.2.1.symm,
        hf₁.2.2.1.trans hf₂.2.2.1.symm,
        hf₁.2.2.2.2.1.trans hf₂.2.2.2.2.1.symm⟩

/-- Witness for C10 at a concrete two-path match set and the mode pair
`all` / `bottom_only`. -/
theorem c10_witness :
    (∃ r, processMatchesLive "all" (fun _ => false)
        [(5, (⟨"a.jpg", "t", ["Wedding > Portraits"]⟩ : MatchData))]
        (cacheExistingData ⟨[], [], [], 1, 1⟩) ⟨[], [], [], 1, 1⟩ = .ok r ∧
      ∀ x ∈ [(5, (⟨"a.jpg", "t", ["Wedding > Portraits"]⟩ : MatchData))],
        ∀ p ∈ x.2.terms, ∀ s ∈ parseTermHierarchy p, (getTermId r.1 s).isSome) ∧
    (runApply ⟨[], [], [], 1, 1⟩ [(5, ⟨"a.jpg", "t", ["Wedding > Portraits"]⟩)] "all"
        (fun _ => false)).1.terms =
      (runApply ⟨[], [], [], 1, 1⟩ [(5, ⟨"a.jpg", "t", ["Wedding > Portraits"]⟩)] "bottom_only"
        (fun _ => false)).1.terms := by
  have h := c10_terms_created_regardless_of_mode ⟨[], [], [], 1, 1⟩
    [(5, ⟨"a.jpg", "t", ["Wedding > Portraits"]⟩)] "all" "bottom_only" (fun _ => false)
    (Or.inl rfl) (Or.inr (Or.inr rfl))
  exact ⟨⟨_, rfl, h.1 _ rfl⟩, h.2.1⟩

theorem lookup_mem {α β : Type} [BEq α] [LawfulBEq α] (l : List (α × β)) (k : α) (v : β)
    (h : List.lookup k l = some v) : (k, v) ∈ l := by
  induction l with
  | nil => simp [List.lookup] at h
  | cons p rest ih =>
    obtain ⟨a, b⟩ := p
    rw [List.lookup_cons] at h
    cases hk : k == a with
    | true =>
      rw [hk] at h
      injection h with hv
      have := eq_of_beq hk
      subst this hv
      exact List.mem_cons_self _ _
    | false =>
      rw [hk] at h
      exact List.mem_cons_of_mem _ (ih h)

theorem mem_loadTtCache (es : List TTEntry) :
    ∀ (acc : List (Nat × Nat)) (pr : Nat × Nat), pr ∈ loadTtCache es acc →
      pr ∈ acc ∨ ∃ e ∈ es, pr = (e.termId, e.ttId) := by
  induction es with
  | nil => intro acc pr h; exact Or.inl h
  | cons e es ih =>
    intro acc pr h
    rw [loadTtCache] at h
    by_cases ht : e.taxonomy = mediaTax
    · rw [if_pos ht] at h
      rcases ih _ _ h with hacc | ⟨e', he', hpr⟩
      · rcases List.mem_cons.mp hacc with rfl | hacc'
        · exact Or.inr ⟨e, List.mem_cons_self _ _, rfl⟩
        · exact Or.inl hacc'
      · exact Or.inr ⟨e', List.mem_cons_of_mem _ he', hpr⟩
    · rw [if_neg ht] at h
      rcases ih _ _ h with hacc | ⟨e', he', hpr⟩
      · exact Or.inl hacc
      · exact Or.inr ⟨e', List.mem_cons_of_mem _ he', hpr⟩

theorem cacheExistingData_ttCacheBound (store : Store) (hwf : storeWF store) :
    ttCacheBound (cacheExistingData store) store := by
  intro pr hpr
  rcases mem_loadTtCache store.ttax [] pr hpr with h | ⟨e, he, rfl⟩
  · simp at h
  · exact hwf.1 e he

theorem bump_eq (rels : List (Nat × Nat)) (tx : List TTEntry) :
    bumpCounts rels tx = tx.map (fun e =>
      { e with count := e.count + (rels.filter (fun r => r.2 = e.ttId)).length }) := by
  induction rels generalizing tx with
  | nil => simp [bumpCounts]
  | cons r rs ih =>
    rw [bumpCounts, List.foldl_cons,
      show List.foldl _ _ rs = bumpCounts rs (tx.map fun e =>
        if e.ttId = r.2 then { e with count := e.count + 1 } else e) from rfl,
      ih, List.map_map]
    apply List.map_congr_left
    intro e _
    obtain ⟨ti, tid, tax, par, cnt⟩ := e
    by_cases h : ti = r.2
    · simp only [Function.comp_apply, if_pos h, List.filter_cons]
      simp only [h]
      simp [TTEntry.mk.injEq]
      omega
    · simp only [Function.comp_apply, if_neg h, List.filter_cons]
      have : ¬ (r.2 = ti) := fun hc => h hc.symm
      simp [this]

theorem createTermLive_inv (st : CatState) (store : Store) (nm : String) (p : Option Nat)
    (hc : countOk store) (hwf : storeWF store) (hb : ttCacheBound st store) :
    countOk (createTermLive st store nm p).2.2 ∧ storeWF (createTermLive st store nm p).2.2 ∧
      ttCacheBound (createTermLive st store nm p).2.1 (createTermLive st store nm p).2.2 := by
  refine ⟨?_, ⟨?_, ?_⟩, ?_⟩
  · intro e he
    simp only [createTermLive] at he ⊢
    rcases List.mem_append.mp he with hold | hnew
    · exact hc e hold
    · simp only [List.mem_singleton] at hnew
      subst hnew
      simp only
      have : store.rels.filter (fun r => r.2 = store.nextTtId) = [] := by
        rw [List.filter_eq_nil_iff]
        intro r hr
        simp only [decide_eq_true_eq]
        exact Nat.ne_of_lt (hwf.2 r hr)
      rw [this]
      rfl
  · intro e he
    simp only [createTermLive] at he ⊢
    rcases List.mem_append.mp he with hold | hnew
    · exact Nat.lt_succ_of_lt (hwf.1 e hold)
    · simp only [List.mem_singleton] at hnew
      subst hnew
      exact Nat.lt_succ_self _
  · intro r hr
    simp only [createTermLive] at hr ⊢
    exact Nat.lt_succ_of_lt (hwf.2 r hr)
  · intro pr hpr
    simp only [createTermLive] at hpr ⊢
    rcases List.mem_cons.mp hpr with rfl | hold
    · exact Nat.lt_succ_self _
    · exact Nat.lt_succ_of_lt (hb pr hold)

theorem ensureSegs_inv (segs : List String) (p : Option Nat) (st : CatState) (store : Store)
    (hc : countOk store) (hwf : storeWF store) (hb : ttCacheBound st store) :
    countOk (ensureSegs false segs p st store).2.2 ∧
      storeWF (ensureSegs false segs p st store).2.2 ∧
      ttCacheBound (ensureSegs false segs p st store).2.1 (ensureSegs false segs p st store).2.2 := by
  induction segs generalizing p st store with
  | nil => exact ⟨hc, hwf, hb⟩
  | cons s ss ih =>
    simp only [ensureSegs]
    cases hs : getTermId st s with
    | some tid => exact ih _ _ _ hc hwf hb
    | none =>
      simp only [createTerm, Bool.false_eq_true, if_false]
      have h := createTermLive_inv st store s p hc hwf hb
      exact ih _ _ _ h.1 h.2.1 h.2.2

theorem ensureAll_inv (ps : List String) (st : CatState) (store : Store)
    (hc : countOk store) (hwf : storeWF store) (hb : ttCacheBound st store) :
    countOk (ensureAll false ps st store).2 ∧ storeWF (ensureAll false ps st store).2 ∧
      ttCacheBound (ensureAll false ps st store).1 (ensureAll false ps st store).2 := by
  induction ps generalizing st store with
  | nil => exact ⟨hc, hwf, hb⟩
  | cons p ps ih =>
    simp only [ensureAll, ensureTermHierarchy]
    have h := ensureSegs_inv (parseTermHierarchy p) none st store hc hwf hb
    exact ih _ _ h.1 h.2.1 h.2.2

theorem planAssign_tt_bound (st : CatState) (store : Store) (aid : Nat) (names : List String)
    (hb : ttCacheBound st store) :
    ∀ x ∈ (planAssign st aid names).2.1, x.2 < store.nextTtId := by
  induction names with
  | nil => intro x hx; simp [planAssign] at hx
  | cons n ns ih =>
    intro x hx
    simp only [planAssign] at hx
    cases h : getTermTaxonomyId st n with
    | none =>
      simp only [h] at hx
      exact ih x hx
    | some tt =>
      simp only [h] at hx
      by_cases hm : (aid, tt) ∈ st.existingRels
      · simp only [if_pos hm] at hx
        exact ih x hx
      · simp only [if_neg hm] at hx
        rcases List.mem_cons.mp hx with rfl | hx'
        · simp only
          rw [getTermTaxonomyId] at h
          cases hg : getTermId st n with
          | none => rw [hg] at h; exact absurd h (by simp)
          | some tid =>
            rw [hg] at h
            simp only at h
            exact hb (tid, tt) (lookup_mem _ _ _ h)
        · exact ih x hx'

theorem insert_step_inv (store : Store) (newRels : List (Nat × Nat))
    (hc : countOk store) (hwf : storeWF store)
    (hbound : ∀ x ∈ newRels, x.2 < store.nextTtId) :
    countOk { store with rels := store.rels ++ newRels,
                         ttax := bumpCounts newRels store.ttax } ∧
      storeWF { store with rels := store.rels ++ newRels,
                           ttax := bumpCounts newRels store.ttax } := by
  refine ⟨?_, ?_, ?_⟩
  · intro e he'
    simp only [bump_eq, List.mem_map] at he'
    rcases he' with ⟨e₀, he₀, rfl⟩
    simp only [List.filter_append, List.length_append]
    rw [hc e₀ he₀]
  · intro e he'
    simp only [bump_eq, List.mem_map] at he'
    rcases he' with ⟨e₀, he₀, rfl⟩
    exact hwf.1 e₀ he₀
  · intro r hr
    simp only [List.mem_append] at hr
    rcases hr with hold | hnew
    · exact hwf.2 r hold
    · exact hbound r hnew

theorem assign_inv (st : CatState) (store : Store) (aid : Nat) (names : List String)
    (fail : Bool) (hc : countOk store) (hwf : storeWF store) (hb : ttCacheBound st store) :
    countOk (assignTermsToAttachment st store aid names false fail).2 ∧
      storeWF (assignTermsToAttachment st store aid names false fail).2 ∧
      ttCacheBound (assignTermsToAttachment st store aid names false fail).1
        (assignTermsToAttachment st store aid names false fail).2 := by
  have hbound := planAssign_tt_bound st store aid names hb
  have hpres := insert_step_inv store (planAssign st aid names).2.1 hc hwf hbound
  rw [assignTermsToAttachment]
  simp only [Bool.false_eq_true, if_false]
  by_cases he : (planAssign st aid names).2.1.isEmpty
  · rw [if_pos he]
    by_cases ha : (planAssign st aid names).1.isEmpty
    · rw [if_pos ha]; exact ⟨hc, hwf, hb⟩
    · rw [if_neg ha]; exact ⟨hc, hwf, hb⟩
  · rw [if_neg he]
    cases fail with
    | true => exact ⟨hc, hwf, hb⟩
    | false =>
      simp only [Bool.false_eq_true, if_false]
      by_cases ha : (planAssign st aid names).1.isEmpty
      · rw [if_pos ha]
        exact ⟨hpres.1, hpres.2, fun pr hpr => hb pr hpr⟩
      · rw [if_neg ha]
        exact ⟨hpres.1, hpres.2, fun pr hpr => hb pr hpr⟩

theorem applyAssignments_inv (mode : String) (bf : Nat → Bool) (ms : List (Nat × MatchData))
    (st : CatState) (store : Store) (r : CatState × Store)
    (h : applyAssignments mode false bf ms st store = .ok r)
    (hc : countOk store) (hwf : storeWF store) (hb : ttCacheBound st store) :
    countOk r.2 := by
  induction ms generalizing st store with
  | nil =>
    rw [applyAssignments] at h
    cases h
    exact hc
  | cons m rest ih =>
    obtain ⟨aid, md⟩ := m
    rw [applyAssignments] at h
    cases hf : filterTermsByMode mode md.terms with
    | error e => simp [hf] at h
    | ok filtered =>
      simp only [hf] at h
      by_cases he : filtered.isEmpty
      · rw [if_pos he] at h
        exact ih _ _ h hc hwf hb
      · rw [if_neg he] at h
        have hstep := assign_inv st store aid filtered (bf aid) hc hwf hb
        exact ih _ _ h hstep.1 hstep.2.1 hstep.2.2

/-- C8: if before a live apply run every `wp_term_taxonomy` row's count
equals the number of relationship rows referencing it, then this still
holds for the store the run leaves behind (committed or, on an aborted
run, untouched): each inserted relationship row bumps exactly its own
entry's count by one in the same transaction, new entries start at zero,
and skipped pre-existing relationships change nothing.  `storeWF` is the
auto-increment well-formedness every real MySQL store satisfies. -/
theorem c8_count_invariant (store : Store) (ms : List (Nat × MatchData)) (mode : String)
    (bf : Nat → Bool) (hwf : storeWF store) (hc : countOk store) :
    countOk (runApply store ms mode bf).1 := by
  rw [runApply, processMatchesLive]
  by_cases he : ms.isEmpty
  · rw [if_pos he]
    exact hc
  · rw [if_neg he]
    cases hr : applyAssignments mode false bf ms
      (ensureAll false (allTermPaths ms) (cacheExistingData store) store).1
      (ensureAll false (allTermPaths ms) (cacheExistingData store) store).2 with
    | error e => exact hc
    | ok r =>
      have hmid := ensureAll_inv (allTermPaths ms) (cacheExistingData store) store hc hwf
        (cacheExistingData_ttCacheBound store hwf)
      exact applyAssignments_inv mode bf ms _ _ r hr hmid.1 hmid.2.1 hmid.2.2

/-- Witness for C8: a concrete run against a well-formed store that both
creates a term and inserts a relationship. -/
theorem c8_witness :
    storeWF ⟨[], [], [], 1, 1⟩ ∧ countOk ⟨[], [], [], 1, 1⟩ ∧
    countOk (runApply ⟨[], [], [], 1, 1⟩ [(5, ⟨"a.jpg", "t", ["Wedding"]⟩)] "all"
      (fun _ => false)).1 :=
  ⟨by simp [storeWF], by simp [countOk],
    c8_count_invariant ⟨[], [], [], 1, 1⟩ [(5, ⟨"a.jpg", "t", ["Wedding"]⟩)] "all"
      (fun _ => false) (by simp [storeWF]) (by simp [countOk])⟩

theorem lowerChar_idem (c : Char) : lowerChar (lowerChar c) = lowerChar c := by
  show Char.toLower (Char.toLower c) = Char.toLower c
  unfold Char.toLower
  by_cases h : c.toNat ≥ 65 ∧ c.toNat ≤ 90
  · rw [if_pos h, Char.ofNat]
    have hv : (c.toNat + 32).isValidChar := Or.inl (by omega)
    rw [dif_pos hv]
    have hval : (Char.ofNatAux (c.toNat + 32) hv).toNat = c.toNat + 32 := rfl
    rw [if_neg (by rw [hval]; omega)]
  · rw [if_neg h, if_neg h]

theorem mem_replaceChar (old : Char) (new l : List Char) (c : Char)
    (h : c ∈ replaceChar old new l) : c ∈ new ∨ c ∈ l := by
  rw [replaceChar] at h
  rcases List.mem_flatMap.mp h with ⟨x, hx, hc⟩
  by_cases hxo : x = old
  · rw [if_pos hxo] at hc
    exact Or.inl hc
  · rw [if_neg hxo] at hc
    rcases List.mem_singleton.mp hc with rfl
    exact Or.inr hx

theorem pySlug_lower_stable (n : String) : pyLower (pySlug n) = pySlug n := by
  apply String.ext
  show ((pySlug n).data.map lowerChar) = (pySlug n).data
  have hfix : ∀ c ∈ (pySlug n).data, lowerChar c = c := by
    intro c hc
    show lowerChar c = c
    have hc' : c ∈ replaceChar '&' ['a', 'n', 'd'] (replaceChar ' ' ['-']
        (n.data.map lowerChar)) := hc
    rcases mem_replaceChar _ _ _ _ hc' with hand | h2
    · simp only [List.mem_cons, List.not_mem_nil, or_false] at hand
      rcases hand with rfl | rfl | rfl
      · decide
      · decide
      · decide
    · rcases mem_replaceChar _ _ _ _ h2 with hdash | h3
      · rw [List.mem_singleton] at hdash
        subst hdash
        decide
      · rcases List.mem_map.mp h3 with ⟨x, -, rfl⟩
        exact lowerChar_idem x
  calc (pySlug n).data.map lowerChar = (pySlug n).data.map id :=
        List.map_congr_left fun c hc => hfix c hc
    _ = (pySlug n).data := List.map_id _

theorem loadTermCache_append (a b : List Term) (c : List (String × Nat)) :
    loadTermCache (a ++ b) c = loadTermCache b (loadTermCache a c) := by
  induction a generalizing c with
  | nil => rfl
  | cons t ts ih => rw [List.cons_append, loadTermCache, loadTermCache, ih]

theorem loadTtCache_append (a b : List TTEntry) (c : List (Nat × Nat)) :
    loadTtCache (a ++ b) c = loadTtCache b (loadTtCache a c) := by
  induction a generalizing c with
  | nil => rfl
  | cons e es ih => rw [List.cons_append, loadTtCache, loadTtCache, ih]

theorem loadTtCache_media (es : List TTEntry) (h : ∀ e ∈ es, e.taxonomy = mediaTax) :
    ∀ c, loadTtCache es c = ttWrites es c := by
  induction es with
  | nil => intro c; rfl
  | cons e es ih =>
    intro c
    rw [loadTtCache, ttWrites, if_pos (h e (List.mem_cons_self _ _))]
    exact ih (fun e' he' => h e' (List.mem_cons_of_mem _ he')) _

theorem loadTtCache_shape_congr (xs ys : List TTEntry)
    (h : xs.map (fun e => (e.ttId, e.termId, e.taxonomy, e.parent)) =
      ys.map (fun e => (e.ttId, e.termId, e.taxonomy, e.parent))) :
    ∀ c, loadTtCache xs c = loadTtCache ys c := by
  induction xs generalizing ys with
  | nil =>
    cases ys with
    | nil => intro c; rfl
    | cons y ys => simp at h
  | cons x xs ih =>
    cases ys with
    | nil => simp at h
    | cons y ys =>
      intro c
      rw [List.map_cons, List.map_cons] at h
      injection h with h1 h2
      injection h1 with ha hb
      injection hb with hb1 hb2
      injection hb2 with hc1 hc2
      rw [loadTtCache, loadTtCache, ha, hb1, hc1]
      exact ih ys h2 _

theorem lookup_eqv_cons {β : Type} (a : String) (v : β) (c₁ c₂ : List (String × β))
    (h : ∀ k, List.lookup k c₁ = List.lookup k c₂) (k : String) :
    List.lookup k ((a, v) :: c₁) = List.lookup k ((a, v) :: c₂) := by
  rw [List.lookup_cons, List.lookup_cons]
  cases k == a
  · exact h k
  · rfl

theorem lookup_w4_w3 (nm slug : String) (id : Nat) (c₁ c₂ : List (String × Nat))
    (h : ∀ k, List.lookup k c₁ = List.lookup k c₂) (k : String) :
    List.lookup k ((slug, id) :: (pyLower nm, id) :: (slug, id) :: (nm, id) :: c₁) =
      List.lookup k ((pyLower nm, id) :: (slug, id) :: (nm, id) :: c₂) := by
  simp only [List.lookup_cons]
  cases hk1 : k == slug <;> cases hk2 : k == pyLower nm <;> cases hk3 : k == nm <;>
    simp_all

theorem loadTermCache_eqv_cWrites (ts : List Term) (hslug : ∀ t ∈ ts, pyLower t.slug = t.slug) :
    ∀ (c₁ c₂ : List (String × Nat)), (∀ k, List.lookup k c₁ = List.lookup k c₂) →
      ∀ k, List.lookup k (loadTermCache ts c₁) = List.lookup k (cWrites ts c₂) := by
  induction ts with
  | nil => intro c₁ c₂ h k; exact h k
  | cons t ts ih =>
    intro c₁ c₂ h k
    rw [loadTermCache, cWrites]
    refine ih (fun t' ht' => hslug t' (List.mem_cons_of_mem _ ht')) _ _ ?_ k
    intro k'
    rw [hslug t (List.mem_cons_self _ _)]
    exact lookup_w4_w3 t.name t.slug t.id c₁ c₂ h k'

theorem cWrites_append (a b : List Term) (c : List (String × Nat)) :
    cWrites (a ++ b) c = cWrites b (cWrites a c) := by
  induction a generalizing c with
  | nil => rfl
  | cons t ts ih => rw [List.cons_append, cWrites, cWrites, ih]

theorem ttWrites_append (a b : List TTEntry) (c : List (Nat × Nat)) :
    ttWrites (a ++ b) c = ttWrites b (ttWrites a c) := by
  induction a generalizing c with
  | nil => rfl
  | cons e es ih => rw [List.cons_append, ttWrites, ttWrites, ih]

theorem ensureSegs_shape (segs : List String) (p : Option Nat) (st : CatState) (store : Store) :
    ∃ (nts : List Term) (ntt : List TTEntry),
      (ensureSegs false segs p st store).2.2.terms = store.terms ++ nts ∧
      (ensureSegs false segs p st store).2.2.ttax = store.ttax ++ ntt ∧
      (ensureSegs false segs p st store).2.1.termCache = cWrites nts st.termCache ∧
      (ensureSegs false segs p st store).2.1.ttCache = ttWrites ntt st.ttCache ∧
      (ensureSegs false segs p st store).2.1.existingRels = st.existingRels ∧
      (∀ t ∈ nts, t.slug = pySlug t.name) ∧
      (∀ e ∈ ntt, e.taxonomy = mediaTax) := by
  induction segs generalizing p st store with
  | nil =>
    exact ⟨[], [], by simp [ensureSegs], by simp [ensureSegs], rfl, rfl, rfl,
      by simp, by simp⟩
  | cons n ns ih =>
    simp only [ensureSegs]
    cases hn : getTermId st n with
    | some tid => exact ih _ _ _
    | none =>
      simp only [createTerm, Bool.false_eq_true, if_false]
      rcases ih (some (createTermLive st store n p).1) (createTermLive st store n p).2.1
        (createTermLive st store n p).2.2 with ⟨nts', ntt', h1, h2, h3, h4, h5, h6, h7⟩
      refine ⟨⟨store.nextTermId, n, pySlug n⟩ :: nts',
        ⟨store.nextTtId, store.nextTermId, mediaTax, p.getD 0, 0⟩ :: ntt', ?_, ?_, ?_, ?_, ?_,
        ?_, ?_⟩
      · rw [h1]
        show _ = store.terms ++ ([⟨store.nextTermId, n, pySlug n⟩] ++ nts')
        rw [← List.append_assoc]
        rfl
      · rw [h2]
        show _ = store.ttax ++ ([⟨store.nextTtId, store.nextTermId, mediaTax, p.getD 0, 0⟩] ++ ntt')
        rw [← List.append_assoc]
        rfl
      · rw [h3]
        rfl
      · rw [h4]
        rfl
      · rw [h5]
        rfl
      · intro t ht
        rcases List.mem_cons.mp ht with rfl | ht'
        · rfl
        · exact h6 t ht'
      · intro e he
        rcases List.mem_cons.mp he with rfl | he'
        · rfl
        · exact h7 e he'

theorem ensureAll_shape (ps : List String) (st : CatState) (store : Store) :
    ∃ (nts : List Term) (ntt : List TTEntry),
      (ensureAll false ps st store).2.terms = store.terms ++ nts ∧
      (ensureAll false ps st store).2.ttax = store.ttax ++ ntt ∧
      (ensureAll false ps st store).1.termCache = cWrites nts st.termCache ∧
      (ensureAll false ps st store).1.ttCache = ttWrites ntt st.ttCache ∧
      (ensureAll false ps st store).1.existingRels = st.existingRels ∧
      (∀ t ∈ nts, t.slug = pySlug t.name) ∧
      (∀ e ∈ ntt, e.taxonomy = mediaTax) := by
  induction ps generalizing st store with
  | nil => exact ⟨[], [], by simp [ensureAll], by simp [ensureAll], rfl, rfl, rfl, by simp, by simp⟩
  | cons q qs ih =>
    simp only [ensureAll, ensureTermHierarchy]
    rcases ensureSegs_shape (parseTermHierarchy q) none st store with
      ⟨nts1, ntt1, g1, g2, g3, g4, g5, g6, g7⟩
    rcases ih (ensureSegs false (parseTermHierarchy q) none st store).2.1
      (ensureSegs false (parseTermHierarchy q) none st store).2.2 with
      ⟨nts2, ntt2, h1, h2, h3, h4, h5, h6, h7⟩
    refine ⟨nts1 ++ nts2, ntt1 ++ ntt2, ?_, ?_, ?_, ?_, ?_, ?_, ?_⟩
    · rw [h1, g1, List.append_assoc]
    · rw [h2, g2, List.append_assoc]
    · rw [h3, g3, cWrites_append]
    · rw [h4, g4, ttWrites_append]
    · rw [h5, g5]
    · intro t ht
      rcases List.mem_append.mp ht with h | h
      · exact g6 t h
      · exact h6 t h
    · intro e he
      rcases List.mem_append.mp he with h | h
      · exact g7 e h
      · exact h7 e h

theorem getTermId_congr (st₁ st₂ : CatState)
    (hterm : ∀ k, List.lookup k st₁.termCache = List.lookup k st₂.termCache) (n : String) :
    getTermId st₁ n = getTermId st₂ n := by
  rw [getTermId, getTermId, lookupTerm, lookupTerm, hterm n, hterm (pyLower n)]

theorem getTermTaxonomyId_congr (st₁ st₂ : CatState)
    (hterm : ∀ k, List.lookup k st₁.termCache = List.lookup k st₂.termCache)
    (htt : st₁.ttCache = st₂.ttCache) (n : String) :
    getTermTaxonomyId st₁ n = getTermTaxonomyId st₂ n := by
  rw [getTermTaxonomyId, getTermTaxonomyId, getTermId_congr st₁ st₂ hterm n, htt]

theorem assign_ex (st : CatState) (store : Store) (aid : Nat) (names : List String)
    (hex : st.existingRels = store.rels) :
    (assignTermsToAttachment st store aid names false false).1.existingRels =
      (assignTermsToAttachment st store aid names false false).2.rels := by
  rw [assignTermsToAttachment]
  simp only [Bool.false_eq_true, if_false]
  by_cases he : (planAssign st aid names).2.1.isEmpty
  · rw [if_pos he]
    by_cases ha : (planAssign st aid names).1.isEmpty
    · rw [if_pos ha]; exact hex
    · rw [if_neg ha]; exact hex
  · rw [if_neg he]
    by_cases ha : (planAssign st aid names).1.isEmpty
    · rw [if_pos ha]
      simp only
      rw [hex]
    · rw [if_neg ha]
      simp only
      rw [hex]

theorem applyAssignments_ex (mode : String) (ms : List (Nat × MatchData)) (st : CatState)
    (store : Store) (r : CatState × Store)
    (h : applyAssignments mode false (fun _ => false) ms st store = .ok r)
    (hex : st.existingRels = store.rels) : r.1.existingRels = r.2.rels := by
  induction ms generalizing st store with
  | nil =>
    rw [applyAssignments] at h
    cases h
    exact hex
  | cons m rest ih =>
    obtain ⟨aid, md⟩ := m
    rw [applyAssignments] at h
    cases hf : filterTermsByMode mode md.terms with
    | error e => simp [hf] at h
    | ok filtered =>
      simp only [hf] at h
      by_cases he : filtered.isEmpty
      · rw [if_pos he] at h
        exact ih _ _ h hex
      · rw [if_neg he] at h
        exact ih _ _ h (assign_ex st store aid filtered hex)

theorem planAssign_pair_mem (st : CatState) (aid : Nat) (names : List String) (n : String)
    (hn : n ∈ names) (tt : Nat) (htt : getTermTaxonomyId st n = some tt) :
    (aid, tt) ∈ st.existingRels ∨ (aid, tt) ∈ (planAssign st aid names).2.1 := by
  induction names with
  | nil => simp at hn
  | cons m ms ih =>
    rcases List.mem_cons.mp hn with rfl | hn'
    · simp only [planAssign, htt]
      by_cases hm : (aid, tt) ∈ st.existingRels
      · exact Or.inl hm
      · rw [if_neg hm]
        exact Or.inr (List.mem_cons_self _ _)
    · simp only [planAssign]
      cases hg : getTermTaxonomyId st m with
      | none =>
        simp only
        exact ih hn'
      | some tt' =>
        dsimp only
        by_cases hm : (aid, tt') ∈ st.existingRels
        · rw [if_pos hm]
          exact ih hn'
        · rw [if_neg hm]
          rcases ih hn' with h | h
          · exact Or.inl h
          · exact Or.inr (List.mem_cons_of_mem _ h)

theorem assign_rels_mono (st : CatState) (store : Store) (aid : Nat) (names : List String)
    (fail : Bool) (x : Nat × Nat) (hx : x ∈ store.rels) :
    x ∈ (assignTermsToAttachment st store aid names false fail).2.rels := by
  rw [assignTermsToAttachment]
  simp only [Bool.false_eq_true, if_false]
  by_cases he : (planAssign st aid names).2.1.isEmpty
  · rw [if_pos he]
    by_cases ha : (planAssign st aid names).1.isEmpty
    · rw [if_pos ha]; exact hx
    · rw [if_neg ha]; exact hx
  · rw [if_neg he]
    cases fail with
    | true => exact hx
    | false =>
      simp only [Bool.false_eq_true, if_false]
      by_cases ha : (planAssign st aid names).1.isEmpty
      · rw [if_pos ha]
        exact List.mem_append_left _ hx
      · rw [if_neg ha]
        exact List.mem_append_left _ hx

theorem assign_newRels_sub (st : CatState) (store : Store) (aid : Nat) (names : List String)
    (x : Nat × Nat) (hx : x ∈ (planAssign st aid names).2.1) :
    x ∈ (assignTermsToAttachment st store aid names false false).2.rels := by
  rw [assignTermsToAttachment]
  simp only [Bool.false_eq_true, if_false]
  have hne : ¬ (planAssign st aid names).2.1.isEmpty := by
    intro hc
    rw [List.isEmpty_iff] at hc
    rw [hc] at hx
    simp at hx
  rw [if_neg hne]
  by_cases ha : (planAssign st aid names).1.isEmpty
  · rw [if_pos ha]
    exact List.mem_append_right _ hx
  · rw [if_neg ha]
    exact List.mem_append_right _ hx

theorem applyAssignments_rels_mono (mode : String) (bf : Nat → Bool)
    (ms : List (Nat × MatchData)) (st : CatState) (store : Store) (r : CatState × Store)
    (h : applyAssignments mode false bf ms st store = .ok r) (x : Nat × Nat)
    (hx : x ∈ store.rels) : x ∈ r.2.rels := by
  induction ms generalizing st store with
  | nil =>
    rw [applyAssignments] at h
    cases h
    exact hx
  | cons m rest ih =>
    obtain ⟨aid, md⟩ := m
    rw [applyAssignments] at h
    cases hf : filterTermsByMode mode md.terms with
    | error e => simp [hf] at h
    | ok filtered =>
      simp only [hf] at h
      by_cases he : filtered.isEmpty
      · rw [if_pos he] at h
        exact ih _ _ h hx
      · rw [if_neg he] at h
        exact ih _ _ h (assign_rels_mono st store aid filtered (bf aid) x hx)

theorem applyAssignments_pairs (mode : String) (ms : List (Nat × MatchData)) (st : CatState)
    (store : Store) (r : CatState × Store)
    (h : applyAssignments mode false (fun _ => false) ms st store = .ok r)
    (hex : st.existingRels = store.rels) :
    ∀ aid md, (aid, md) ∈ ms → ∀ l, filterTermsByMode mode md.terms = .ok l →
      ∀ n ∈ l, ∀ tt, getTermTaxonomyId st n = some tt → (aid, tt) ∈ r.2.rels := by
  induction ms generalizing st store with
  | nil => intro aid md hmem; simp at hmem
  | cons m rest ih =>
    obtain ⟨aid₀, md₀⟩ := m
    intro aid md hmem l hl n hn tt htt
    rw [applyAssignments] at h
    cases hf : filterTermsByMode mode md₀.terms with
    | error e => simp [hf] at h
    | ok filtered =>
      simp only [hf] at h
      by_cases he : filtered.isEmpty
      · rw [if_pos he] at h
        rcases List.mem_cons.mp hmem with heq | htail
        · injection heq with h1 h2
          subst h1 h2
          rw [hf] at hl
          injection hl with hl
          subst hl
          rw [List.isEmpty_iff] at he
          rw [he] at hn
          simp at hn
        · exact ih _ _ h hex aid md htail l hl n hn tt htt
      · rw [if_neg he] at h
        rcases List.mem_cons.mp hmem with heq | htail
        · injection heq with h1 h2
          subst h1 h2
          rw [hf] at hl
          injection hl with hl
          subst hl
          rcases planAssign_pair_mem st aid filtered n hn tt htt with hint | hnew
          · rw [hex] at hint
            exact applyAssignments_rels_mono mode _ rest _ _ r h _
              (assign_rels_mono st store aid filtered false _ hint)
          · exact applyAssignments_rels_mono mode _ rest _ _ r h _
              (assign_newRels_sub st store aid filtered _ hnew)
        · have hframe := assign_frame st store aid₀ filtered false false
          have htt' : getTermTaxonomyId
              (assignTermsToAttachment st store aid₀ filtered false false).1 n = some tt := by
            rw [getTermTaxonomyId_congr _ st (fun k => by rw [hframe.1]) hframe.2.1 n]
            exact htt
          exact ih _ _ h (assign_ex st store aid₀ filtered hex) aid md htail l hl n hn tt htt'

theorem ensureSegs_found (segs : List String) (p : Option Nat) (st : CatState) (store : Store)
    (hall : ∀ s ∈ segs, (getTermId st s).isSome) :
    ∃ x, ensureSegs false segs p st store = (x, st, store) := by
  induction segs generalizing p with
  | nil => exact ⟨p, rfl⟩
  | cons n ns ih =>
    cases hs : getTermId st n with
    | none =>
      have := hall n (List.mem_cons_self _ _)
      rw [hs] at this
      simp at this
    | some tid =>
      simp only [ensureSegs, hs]
      exact ih _ (fun s hs' => hall s (List.mem_cons_of_mem _ hs'))

theorem ensureAll_found (ps : List String) (st : CatState) (store : Store)
    (hall : ∀ p ∈ ps, ∀ s ∈ parseTermHierarchy p, (getTermId st s).isSome) :
    ensureAll false ps st store = (st, store) := by
  induction ps with
  | nil => rfl
  | cons q qs ih =>
    simp only [ensureAll, ensureTermHierarchy]
    rcases ensureSegs_found (parseTermHierarchy q) none st store
      (hall q (List.mem_cons_self _ _)) with ⟨x, hx⟩
    rw [hx]
    exact ih fun p hp s hs => hall p (List.mem_cons_of_mem _ hp) s hs

theorem planAssign_skip_all (st : CatState) (aid : Nat) (names : List String)
    (hall : ∀ n ∈ names, ∀ tt, getTermTaxonomyId st n = some tt →
      (aid, tt) ∈ st.existingRels) :
    (planAssign st aid names).1 = [] ∧ (planAssign st aid names).2.1 = [] := by
  induction names with
  | nil => exact ⟨rfl, rfl⟩
  | cons n ns ih =>
    have ihr := ih fun n' hn' => hall n' (List.mem_cons_of_mem _ hn')
    simp only [planAssign]
    cases hg : getTermTaxonomyId st n with
    | none =>
      dsimp only
      exact ihr
    | some tt =>
      dsimp only
      rw [if_pos (hall n (List.mem_cons_self _ _) tt hg)]
      exact ihr

theorem assign_noop (st : CatState) (store : Store) (aid : Nat) (names : List String)
    (hall : ∀ n ∈ names, ∀ tt, getTermTaxonomyId st n = some tt →
      (aid, tt) ∈ st.existingRels) :
    (assignTermsToAttachment st store aid names false false).2 = store ∧
      (assignTermsToAttachment st store aid names false false).1.createdTerms =
        st.createdTerms ∧
      (assignTermsToAttachment st store aid names false false).1.termCache = st.termCache ∧
      (assignTermsToAttachment st store aid names false false).1.ttCache = st.ttCache ∧
      (assignTermsToAttachment st store aid names false false).1.existingRels =
        st.existingRels ∧
      (assignTermsToAttachment st store aid names false false).1.assignedRels =
        st.assignedRels := by
  have hplan := planAssign_skip_all st aid names hall
  rw [assignTermsToAttachment]
  simp only [Bool.false_eq_true, if_false]
  rw [if_pos (by rw [List.isEmpty_iff]; exact hplan.2),
    if_pos (by rw [List.isEmpty_iff]; exact hplan.1)]
  exact ⟨rfl, rfl, rfl, rfl, rfl, rfl⟩

theorem applyAssignments_noop (mode : String) (ms : List (Nat × MatchData)) (st : CatState)
    (store : Store)
    (hmode : mode = "all" ∨ mode = "children_only" ∨ mode = "bottom_only")
    (hall : ∀ aid md, (aid, md) ∈ ms → ∀ l, filterTermsByMode mode md.terms = .ok l →
      ∀ n ∈ l, ∀ tt, getTermTaxonomyId st n = some tt → (aid, tt) ∈ st.existingRels) :
    ∃ stF, applyAssignments mode false (fun _ => false) ms st store = .ok (stF, store) ∧
      stF.createdTerms = st.createdTerms ∧ stF.assignedRels = st.assignedRels := by
  induction ms generalizing st store with
  | nil => exact ⟨st, rfl, rfl, rfl⟩
  | cons m rest ih =>
    obtain ⟨aid₀, md₀⟩ := m
    rcases filter_valid_ok mode md₀.terms hmode with ⟨l₀, hl₀⟩
    rw [applyAssignments]
    simp only [hl₀]
    by_cases he : l₀.isEmpty
    · rw [if_pos he]
      exact ih st store fun aid md hmem => hall aid md (List.mem_cons_of_mem _ hmem)
    · rw [if_neg he]
      have hstep := assign_noop st store aid₀ l₀
        (fun n hn tt htt => hall aid₀ md₀ (List.mem_cons_self _ _) l₀ hl₀ n hn tt htt)
      have hall' : ∀ aid md, (aid, md) ∈ rest → ∀ l, filterTermsByMode mode md.terms = .ok l →
          ∀ n ∈ l, ∀ tt,
            getTermTaxonomyId (assignTermsToAttachment st store aid₀ l₀ false false).1 n =
              some tt →
            (aid, tt) ∈ (assignTermsToAttachment st store aid₀ l₀ false false).1.existingRels := by
        intro aid md hmem l hl n hn tt htt
        rw [hstep.2.2.2.2.1]
        rw [getTermTaxonomyId_congr _ st (fun k => by rw [hstep.2.2.1]) hstep.2.2.2.1 n] at htt
        exact hall aid md (List.mem_cons_of_mem _ hmem) l hl n hn tt htt
      rcases ih (assignTermsToAttachment st store aid₀ l₀ false false).1
        (assignTermsToAttachment st store aid₀ l₀ false false).2 hall' with ⟨stF, hF, hc, ha⟩
      refine ⟨stF, ?_, ?_, ?_⟩
      · rw [hF, hstep.1]
      · rw [hc, hstep.2.1]
      · rw [ha, hstep.2.2.2.2.2]

/-- C2: running the Applier a second time against the same matches
artifact and the store left by the first run's commit is a no-op: the
second run creates zero terms (`created_terms` is empty), inserts zero
relationship rows (the committed store is unchanged, every resolvable
pair is found in the existing-relationships set and silently skipped,
and nothing is newly assigned), and exits `0`. -/
theorem c2_idempotent_rerun (store : Store) (ms : List (Nat × MatchData)) (mode : String)
    (hmode : mode = "all" ∨ mode = "children_only" ∨ mode = "bottom_only") :
    (runApply store ms mode (fun _ => false)).2.2 = 0 ∧
    (runApply (runApply store ms mode (fun _ => false)).1 ms mode (fun _ => false)).1 =
      (runApply store ms mode (fun _ => false)).1 ∧
    (runApply (runApply store ms mode (fun _ => false)).1 ms mode
      (fun _ => false)).2.1.createdTerms = [] ∧
    (runApply (runApply store ms mode (fun _ => false)).1 ms mode
      (fun _ => false)).2.1.assignedRels = [] ∧
    (runApply (runApply store ms mode (fun _ => false)).1 ms mode
      (fun _ => false)).2.2 = 0 := by
  by_cases hms : ms.isEmpty
  · rw [List.isEmpty_iff] at hms
    subst hms
    exact ⟨rfl, rfl, rfl, rfl, rfl⟩
  · rcases applyAssignments_ok mode false (fun _ => false) ms
      (ensureAll false (allTermPaths ms) (cacheExistingData store) store).1
      (ensureAll false (allTermPaths ms) (cacheExistingData store) store).2 hmode with ⟨r₁, hr₁⟩
    have hrun1 : runApply store ms mode (fun _ => false) = (r₁.2, r₁.1, 0) := by
      rw [runApply, processMatchesLive, if_neg hms, hr₁]
    rcases ensureAll_shape (allTermPaths ms) (cacheExistingData store) store with
      ⟨nts, ntt, hterm, httax, hcache, httcache, hex0, hslug, htax⟩
    have hfr := applyAssignments_frame mode false (fun _ => false) ms _ _ r₁ hr₁
    have hslug' : ∀ t ∈ nts, pyLower t.slug = t.slug := by
      intro t ht
      rw [hslug t ht, pySlug_lower_stable]
    have hterm2 : ∀ k, List.lookup k (cacheExistingData r₁.2).termCache =
        List.lookup k r₁.1.termCache := by
      intro k
      show List.lookup k (loadTermCache r₁.2.terms []) = _
      rw [hfr.2.2.2.1, hterm, loadTermCache_append, hfr.1, hcache]
      exact loadTermCache_eqv_cWrites nts hslug' _ _ (fun k' => rfl) k
    have htt2 : (cacheExistingData r₁.2).ttCache = r₁.1.ttCache := by
      show loadTtCache r₁.2.ttax [] = _
      rw [loadTtCache_shape_congr r₁.2.ttax _ hfr.2.2.2.2.1 [], httax, loadTtCache_append,
        loadTtCache_media ntt htax, hfr.2.1, httcache]
      rfl
    have hexE : (ensureAll false (allTermPaths ms) (cacheExistingData store) store).1.existingRels
        = (ensureAll false (allTermPaths ms) (cacheExistingData store) store).2.rels := by
      rw [hex0, ensureAll_rels]
      rfl
    have hres2 : ∀ p ∈ allTermPaths ms, ∀ s ∈ parseTermHierarchy p,
        (getTermId (cacheExistingData r₁.2) s).isSome := by
      intro p hp s hs
      rw [getTermId_congr (cacheExistingData r₁.2)
        (ensureAll false (allTermPaths ms) (cacheExistingData store) store).1
        (fun k => by rw [hterm2 k, hfr.1]) s]
      exact ensureAll_resolves (allTermPaths ms) (cacheExistingData store) store p hp s hs
    have hall₂ : ∀ aid md, (aid, md) ∈ ms → ∀ l, filterTermsByMode mode md.terms = .ok l →
        ∀ n ∈ l, ∀ tt, getTermTaxonomyId (cacheExistingData r₁.2) n = some tt →
          (aid, tt) ∈ (cacheExistingData r₁.2).existingRels := by
      intro aid md hmem l hl n hn tt htt
      rw [getTermTaxonomyId_congr (cacheExistingData r₁.2)
        (ensureAll false (allTermPaths ms) (cacheExistingData store) store).1
        (fun k => by rw [hterm2 k, hfr.1]) (htt2.trans hfr.2.1) n] at htt
      exact applyAssignments_pairs mode ms _ _ r₁ hr₁ hexE aid md hmem l hl n hn tt htt
    rcases applyAssignments_noop mode ms (cacheExistingData r₁.2) r₁.2 hmode hall₂ with
      ⟨stF, hF, hcF, haF⟩
    have hmid2 : ensureAll false (allTermPaths ms) (cacheExistingData r₁.2) r₁.2 =
        (cacheExistingData r₁.2, r₁.2) := ensureAll_found _ _ _ hres2
    have hrun2 : runApply r₁.2 ms mode (fun _ => false) = (r₁.2, stF, 0) := by
      rw [runApply, processMatchesLive, if_neg hms, hmid2, hF]
    rw [hrun1]
    refine ⟨rfl, ?_, ?_, ?_, ?_⟩
    · simp only [hrun2]
    · simp only [hrun2]
      rw [hcF]
      rfl
    · simp only [hrun2]
      rw [haF]
      rfl
    · simp only [hrun2]

/-- Witness for C2 at a concrete first run that creates a term and a
relationship. -/
theorem c2_witness :
    (runApply ⟨[], [], [], 1, 1⟩ [(5, ⟨"a.jpg", "t", ["Wedding"]⟩)] "all"
      (fun _ => false)).2.2 = 0 ∧
    (runApply (runApply ⟨[], [], [], 1, 1⟩ [(5, ⟨"a.jpg", "t", ["Wedding"]⟩)] "all"
        (fun _ => false)).1 [(5, ⟨"a.jpg", "t", ["Wedding"]⟩)] "all" (fun _ => false)).1 =
      (runApply ⟨[], [], [], 1, 1⟩ [(5, ⟨"a.jpg", "t", ["Wedding"]⟩)] "all"
        (fun _ => false)).1 ∧
    (runApply (runApply ⟨[], [], [], 1, 1⟩ [(5, ⟨"a.jpg", "t", ["Wedding"]⟩)] "all"
        (fun _ => false)).1 [(5, ⟨"a.jpg", "t", ["Wedding"]⟩)] "all"
        (fun _ => false)).2.1.createdTerms = [] := by
  have h := c2_idempotent_rerun ⟨[], [], [], 1, 1⟩ [(5, ⟨"a.jpg", "t", ["Wedding"]⟩)] "all"
    (Or.inl rfl)
  exact ⟨h.1, h.2.1, h.2.2.1⟩
